import Mathlib

/-!
Verification development for the Pitt CS course-catalog extraction pipeline
(`pitt_cs_courses.py`).  Strings are modelled as `List Char`; the ASCII
fragment of Python's regex character classes (`\w`, `\s`, `\d`, `[A-Z]`,
`[A-Za-z]`) is used, which covers every input the scraper manipulates.
Each scanning function below mirrors one `re` operation of the source,
with Python's leftmost-match / greedy / lazy backtracking order made
explicit.  Scans that advance past a whole match are written with an
explicit fuel argument (set to the input length) so that they are
structurally recursive and evaluate inside the kernel.
-/

/-- Python `\s` (ASCII): space, tab, newline, carriage return, vertical tab, form feed. -/
def isWsChar (c : Char) : Bool :=
  c.toNat == 32 || c.toNat == 9 || c.toNat == 10 || c.toNat == 13 || c.toNat == 11 || c.toNat == 12

/-- Python `\d` (ASCII digits). -/
def isDigitChar (c : Char) : Bool :=
  48 ≤ c.toNat && c.toNat ≤ 57

/-- Regex class `[A-Z]`. -/
def isUpperAZ (c : Char) : Bool :=
  65 ≤ c.toNat && c.toNat ≤ 90

/-- Regex class `[a-z]`. -/
def isLowerAZ (c : Char) : Bool :=
  97 ≤ c.toNat && c.toNat ≤ 122

/-- Regex class `[A-Za-z]`. -/
def isAlphaChar (c : Char) : Bool :=
  isUpperAZ c || isLowerAZ c

/-- Python `\w` (ASCII): letters, digits, underscore. -/
def isWordChar (c : Char) : Bool :=
  isAlphaChar c || isDigitChar c || c.toNat == 95

/-- ASCII lowercasing, as used by `re.IGNORECASE` and `str.lower()` on ASCII text. -/
def lowerChar (c : Char) : Char :=
  if isUpperAZ c then Char.ofNat (c.toNat + 32) else c

/-- ASCII uppercasing, as used by `str.upper()` on ASCII text. -/
def upperChar (c : Char) : Char :=
  if isLowerAZ c then Char.ofNat (c.toNat - 32) else c

/-- Case-insensitive literal match of the (lowercase) keyword `kw` at the head of `s`. -/
def ciHasPre : List Char → List Char → Bool
  | [], _ => true
  | _ :: _, [] => false
  | k :: ks, c :: cs => (lowerChar c == k) && ciHasPre ks cs

/-- The first four characters of `l` when they are all digits (the `\d{4}` tail
of several source patterns). -/
def first4Digits : List Char → Option (List Char)
  | d1 :: d2 :: d3 :: d4 :: _ =>
    if isDigitChar d1 && isDigitChar d2 && isDigitChar d3 && isDigitChar d4 then
      some [d1, d2, d3, d4]
    else none
  | _ => none

/-- One attempt of the substitution pattern `(\w+)\s+(\d{4})` at the head of `s`
(source line 382).  The quantifiers are forced to their maximal runs: `\w`, `\s`
and `\d` are pairwise disjoint, so backtracking cannot shorten them.  On success,
returns the replacement `\1-\2` and the rest of the input after the match. -/
def trySubMatch (s : List Char) : Option (List Char × List Char) :=
  if (s.takeWhile isWordChar).isEmpty then none
  else if ((s.dropWhile isWordChar).takeWhile isWsChar).isEmpty then none
  else
    match first4Digits ((s.dropWhile isWordChar).dropWhile isWsChar) with
    | some ds =>
      some (s.takeWhile isWordChar ++ '-' :: ds,
            ((s.dropWhile isWordChar).dropWhile isWsChar).drop 4)
    | none => none

/-- `re.sub(r'(\w+)\s+(\d{4})', r'\1-\2', s)` (source line 382): left-to-right
non-overlapping scan, replacing each match and copying unmatched characters.
The fuel is an upper bound on the number of scan steps. -/
def subSpacedF : Nat → List Char → List Char
  | _, [] => []
  | 0, s => s
  | fuel + 1, c :: cs =>
    match trySubMatch (c :: cs) with
    | some (rep, rest) => rep ++ subSpacedF fuel rest
    | none => c :: subSpacedF fuel cs

/-- The substitution scan, with fuel fixed to the input length. -/
def subSpaced (s : List Char) : List Char := subSpacedF s.length s

/-- One attempt of the split pattern `\s+KW\s+` (case-insensitive) at the head of
`s` (source lines 385 and 390).  Both `\s+` runs are forced maximal: whitespace
is disjoint from the keyword letters, and giving a character back from either
run would place a whitespace character where a keyword letter (resp. the
character after the match) is required.  Returns the rest of the input after
the match. -/
def tryKWMatch (kw : List Char) (s : List Char) : Option (List Char) :=
  if (s.takeWhile isWsChar).isEmpty then none
  else if ciHasPre kw (s.dropWhile isWsChar) then
    if (((s.dropWhile isWsChar).drop kw.length).takeWhile isWsChar).isEmpty then none
    else some (((s.dropWhile isWsChar).drop kw.length).dropWhile isWsChar)
  else none

/-- `re.split(r'\s+KW\s+', s)` scan: accumulate the current field in `acc`
(reversed), end the field at each match, continue after the matched text. -/
def splitKWAuxF (kw : List Char) : Nat → List Char → List Char → List (List Char)
  | _, acc, [] => [acc.reverse]
  | 0, acc, s => [acc.reverse ++ s]
  | fuel + 1, acc, c :: cs =>
    match tryKWMatch kw (c :: cs) with
    | some rest => acc.reverse :: splitKWAuxF kw fuel [] rest
    | none => splitKWAuxF kw fuel (c :: acc) cs

/-- The split scan with fuel fixed to the input length. -/
def splitKWAux (kw acc s : List Char) : List (List Char) :=
  splitKWAuxF kw s.length acc s

/-- `re.split(r'\s+KW\s+', s, flags=re.IGNORECASE)` (source lines 385 and 390). -/
def splitKW (kw s : List Char) : List (List Char) :=
  splitKWAux kw [] s

/-- One attempt of the search pattern `([A-Z]+[-\s]?\d{4})` at the head of `s`
(source line 395).  `[A-Z]+` is forced maximal (shortening it puts an uppercase
letter where `[-\s]` or `\d` must match); the optional separator is tried
greedily first, and if its digits fail, the zero-separator alternative starts
at the separator character itself, which is not a digit, so it fails too. -/
def tryCodeMatch (s : List Char) : Option (List Char) :=
  if (s.takeWhile isUpperAZ).isEmpty then none
  else
    match s.dropWhile isUpperAZ with
    | c :: tl =>
      if c == '-' || isWsChar c then
        match first4Digits tl with
        | some ds => some (s.takeWhile isUpperAZ ++ c :: ds)
        | none => none
      else
        match first4Digits (c :: tl) with
        | some ds => some (s.takeWhile isUpperAZ ++ ds)
        | none => none
    | [] => none

/-- `re.search(r'([A-Z]+[-\s]?\d{4})', s)`: leftmost match wins. -/
def searchCode : List Char → Option (List Char)
  | [] => none
  | c :: cs =>
    match tryCodeMatch (c :: cs) with
    | some tok => some tok
    | none => searchCode cs

/-- `PittCoursesClient.parse_prerequisites` (source lines 373-402): empty-input
short-circuit, spaced-course substitution, split on `or`, split each group on
`and`, extract the first course-code-shaped substring of each member, and drop
groups with no extracted member. -/
def parse_prerequisites (s : List Char) : List (List (List Char)) :=
  if s.isEmpty then []
  else
    (((splitKW (['o', 'r']) (subSpaced s)).map
        (fun g => (splitKW (['a', 'n', 'd']) g).filterMap searchCode)).filter
      (fun g => !g.isEmpty))

/-- A list with no whitespace character immediately followed by a digit. -/
def NoWsDig (l : List Char) : Prop :=
  ∀ a b : List Char, ∀ w d : Char,
    l = a ++ w :: d :: b → isWsChar w = true → isDigitChar d = true → False

/-- Exactly four digits. -/
def fourDigitsExact (l : List Char) : Bool :=
  (l.length == 4) && l.all isDigitChar

/-- Full (anchored) match of the course-code shape `[A-Z]+-?\\d{4}` from the
spec's token invariant. -/
def codeShape (s : List Char) : Bool :=
  !(s.takeWhile isUpperAZ).isEmpty &&
    (fourDigitsExact (s.dropWhile isUpperAZ) ||
      (((s.dropWhile isUpperAZ).head? == some '-') &&
        fourDigitsExact (s.dropWhile isUpperAZ).tail))

/-- The head of `l` (when any) is not whitespace. -/
def HeadNonWs (l : List Char) : Prop :=
  ∀ c tl, l = c :: tl → isWsChar c = false

/-- Head of a list, or `false` for the whitespace test on the empty list. -/
def headIsWs : List Char → Bool
  | c :: _ => isWsChar c
  | [] => false

/-- A position carries the whitespace-separated variant of the course-code
pattern: a nonempty maximal `[A-Z]+` run, then one whitespace character, then
four digits.  `searchCode` produces a non-hyphen-shaped token exactly at such a
position. -/
def wsCodeAt (s : List Char) : Bool :=
  !(s.takeWhile isUpperAZ).isEmpty && headIsWs (s.dropWhile isUpperAZ) &&
    (first4Digits (s.dropWhile isUpperAZ).tail).isSome

/-- Regex class `[0-9:apmn-]` of the primary section pattern's times group. -/
def isTimeChar (c : Char) : Bool :=
  isDigitChar c || c == ':' || c == 'a' || c == 'p' || c == 'm' || c == 'n' || c == '-'

/-- Regex class `[A-Z0-9\s]` of the primary section pattern's room group. -/
def isRoomChar (c : Char) : Bool :=
  isUpperAZ c || isDigitChar c || isWsChar c

/-- Regex class `[A-Za-z\s]` of the primary section pattern's instructor group. -/
def isInstrChar (c : Char) : Bool :=
  isAlphaChar c || isWsChar c

/-- All ways for a `+` quantifier over character class `p` to consume a
nonempty prefix of `s`: `(consumed, rest)` pairs, shortest first. -/
def plusSplits (p : Char → Bool) (s : List Char) : List (List Char × List Char) :=
  (List.range (s.takeWhile p).length).map (fun k => (s.take (k + 1), s.drop (k + 1)))

/-- Greedy `+`: longest consumption is preferred, as Python tries it first. -/
def plusG (p : Char → Bool) (s : List Char) : List (List Char × List Char) :=
  (plusSplits p s).reverse

/-- Lazy `+?`: shortest consumption is preferred. -/
def plusL (p : Char → Bool) (s : List Char) : List (List Char × List Char) :=
  plusSplits p s

/-- Backtracking: try alternatives in preference order, first success wins. -/
def tryEach : List α → (α → Option β) → Option β
  | [], _ => none
  | a :: l, f =>
    match f a with
    | some b => some b
    | none => tryEach l f

/-- A single literal character. -/
def litChar (c : Char) (s : List Char) : Option (List Char) :=
  match s with
  | x :: tl => if x == c then some tl else none
  | [] => none

/-- The alternation `(LEC|REC|LAB)`, tried left to right. -/
def matchTypeTok (s : List Char) : Option (List Char × List Char) :=
  if (("LEC").data).isPrefixOf s then some ((("LEC").data), s.drop 3)
  else if (("REC").data).isPrefixOf s then some ((("REC").data), s.drop 3)
  else if (("LAB").data).isPrefixOf s then some ((("LAB").data), s.drop 3)
  else none

/-- One row section record (class `CourseSection` of the source; `tas` is never
set by the parser). -/
structure CourseSection where
  class_number : List Char := []
  days : List Char := []
  times : List Char := []
  room : List Char := []
  instructor : List Char := []
  section_type : List Char := []
  tas : List Char := []
deriving DecidableEq

/-- Leading/trailing-whitespace strip, Python `str.strip()`. -/
def stripWs (s : List Char) : List Char :=
  ((s.dropWhile isWsChar).reverse.dropWhile isWsChar).reverse

/-- One attempt of the primary structured section pattern
`(\d+)\s+\((\d+)\)\s+([A-Za-z]+)\s+([0-9:apmn-]+)\s+([A-Z0-9\s]+?)\s+([A-Za-z\s]+?)\s+(LEC|REC|LAB)`
(source line 230) at the head of `s`, with Python's backtracking preference
order: greedy quantifiers try longest consumption first, the lazy room and
instructor groups try shortest first.  The parenthesized section number is
captured but, as in the source, not stored. -/
def matchPrimaryAt (s : List Char) : Option (CourseSection × List Char) :=
  tryEach (plusG isDigitChar s) fun a =>
  tryEach (plusG isWsChar a.2) fun b =>
  match litChar '(' b.2 with
  | none => none
  | some s3 =>
    tryEach (plusG isDigitChar s3) fun c =>
    match litChar ')' c.2 with
    | none => none
    | some s5 =>
      tryEach (plusG isWsChar s5) fun d =>
      tryEach (plusG isAlphaChar d.2) fun e =>
      tryEach (plusG isWsChar e.2) fun f =>
      tryEach (plusG isTimeChar f.2) fun g =>
      tryEach (plusG isWsChar g.2) fun h =>
      tryEach (plusL isRoomChar h.2) fun i =>
      tryEach (plusG isWsChar i.2) fun j =>
      tryEach (plusL isInstrChar j.2) fun k =>
      tryEach (plusG isWsChar k.2) fun l =>
      match matchTypeTok l.2 with
      | some tt =>
        some (⟨a.1, e.1, g.1, stripWs i.1, stripWs k.1, tt.1, []⟩, tt.2)
      | none => none

/-- `re.findall` scan for the primary pattern: non-overlapping matches, resume
after each match; the fuel bounds the scan steps. -/
def findPrimaryF : Nat → List Char → List CourseSection
  | _, [] => []
  | 0, _ => []
  | fuel + 1, c :: cs =>
    match matchPrimaryAt (c :: cs) with
    | some (sec, rest) => sec :: findPrimaryF fuel rest
    | none => findPrimaryF fuel cs

/-- The primary pass of `_parse_sections_table` (source lines 230-251). -/
def findPrimary (s : List Char) : List CourseSection := findPrimaryF s.length s

/-- Python `text.split('\n')`: fields between newlines, empties kept. -/
def splitOnNL : List Char → List (List Char)
  | [] => [[]]
  | c :: t =>
    if c == '\n' then [] :: splitOnNL t
    else
      match splitOnNL t with
      | h :: r => (c :: h) :: r
      | [] => [[c]]

/-- Python `str.split()`: whitespace-delimited tokens, empties dropped. -/
def splitWsTokens (s : List Char) : List (List Char) :=
  let p := s.foldr
    (fun c st =>
      if isWsChar c then (if st.1.isEmpty then st else ([], st.1 :: st.2))
      else (c :: st.1, st.2))
    (([], []) : List Char × List (List Char))
  if p.1.isEmpty then p.2 else p.1 :: p.2

/-- `re.match(r'(\d{5})\s+\((\d+)\)\s+(.+)', line)` (source line 266): five
digits (a sixth digit would land on `\s+` and fail), maximal whitespace, the
parenthesized section number, then whitespace and the nonempty remainder.  If
everything after `)` is whitespace, greedy `\s+` backtracks one character so
that `(.+)` can take the final whitespace character. -/
def classLineMatch (line : List Char) :
    Option (List Char × List Char × List Char) :=
  match line with
  | d1 :: d2 :: d3 :: d4 :: d5 :: r =>
    if isDigitChar d1 && isDigitChar d2 && isDigitChar d3 && isDigitChar d4 &&
        isDigitChar d5 then
      if (r.takeWhile isWsChar).isEmpty then none
      else
        match litChar '(' (r.dropWhile isWsChar) with
        | none => none
        | some r2 =>
          if (r2.takeWhile isDigitChar).isEmpty then none
          else
            match litChar ')' (r2.dropWhile isDigitChar) with
            | none => none
            | some r4 =>
              if (r4.takeWhile isWsChar).isEmpty then none
              else if !(r4.dropWhile isWsChar).isEmpty then
                some ([d1, d2, d3, d4, d5], r2.takeWhile isDigitChar,
                  r4.dropWhile isWsChar)
              else if 2 ≤ (r4.takeWhile isWsChar).length then
                some ([d1, d2, d3, d4, d5], r2.takeWhile isDigitChar,
                  (r4.takeWhile isWsChar).drop ((r4.takeWhile isWsChar).length - 1))
              else none
    else none
  | _ => none

/-- Membership in the literal set `['LEC', 'REC', 'LAB']`. -/
def isTypeTok (p : List Char) : Bool :=
  p == ("LEC").data || p == ("REC").data || p == ("LAB").data

/-- `re.match(r'[A-Z]+\s*\d+', part)` (source line 284): a leading uppercase
run, optional whitespace (never present inside a whitespace-split token), then
a digit. -/
def roomTokShape (p : List Char) : Bool :=
  !(p.takeWhile isUpperAZ).isEmpty &&
    !(((p.dropWhile isUpperAZ).dropWhile isWsChar).takeWhile isDigitChar).isEmpty

/-- `re.match(r'[A-Za-z]', part)`: the token starts with a letter. -/
def headAlphaTok : List Char → Bool
  | c :: _ => isAlphaChar c
  | [] => false

/-- The token starts with a `[0-9:apmn-]` character
(`re.match(r'[0-9:apmn-]+', part)`, an unanchored-end prefix test). -/
def headTimeTok : List Char → Bool
  | c :: _ => isTimeChar c
  | [] => false

/-- The inner loop of the fallback instructor branch (source lines 289-295):
collect tokens until a section-type token, which ends the collection and
becomes the section type. -/
def instrCollect : List (List Char) → List (List Char) × List Char
  | [] => ([], [])
  | p :: r =>
    if isTypeTok p then ([], p)
    else
      let pr := instrCollect r
      (p :: pr.1, pr.2)

/-- `' '.join(...)`. -/
def joinSpaces : List (List Char) → List Char
  | [] => []
  | [x] => x
  | x :: r => x ++ ' ' :: joinSpaces r

/-- The token walk of the fallback pass (source lines 283-297) over
`info_parts[2:]`, carrying the mutable `room`/`instructor`/`section_type`:
a room-shaped token records the token joined with its successor (without
breaking), a type token records the type (without breaking), and the first
letter-headed token while no type is known collects the instructor tokens and
ends the walk. -/
def walkParts : List (List Char) → List Char → List Char → List Char →
    List Char × List Char × List Char
  | [], room, instr, ty => (room, instr, ty)
  | p :: rest, room, instr, ty =>
    if roomTokShape p then
      walkParts rest (match rest with | q :: _ => p ++ ' ' :: q | [] => p) instr ty
    else if isTypeTok p then walkParts rest room instr p
    else if ty.isEmpty && headAlphaTok p then
      let pr := instrCollect (p :: rest)
      (room, joinSpaces pr.1, pr.2)
    else walkParts rest room instr ty

/-- One line of the fallback pass (source lines 260-307): strip, match the
class-number pattern, split the remainder into tokens, and when there are at
least four tokens build a section from the positional days/times fields and
the token walk. -/
def lineSection (rawLine : List Char) : Option CourseSection :=
  let line := stripWs rawLine
  if line.isEmpty then none
  else
    match classLineMatch line with
    | none => none
    | some (cn, _, info) =>
      let parts := splitWsTokens info
      if 4 ≤ parts.length then
        let days := match parts with
          | p0 :: _ => if !p0.isEmpty && p0.all isAlphaChar then p0 else []
          | [] => []
        let times := match parts with
          | _ :: p1 :: _ => if headTimeTok p1 then p1 else []
          | _ => []
        let rit := walkParts (parts.drop 2) [] [] []
        some ⟨cn, days, times, stripWs rit.1, stripWs rit.2.1, rit.2.2, []⟩
      else none

/-- The fallback pass of `_parse_sections_table` (source lines 253-307). -/
def fallbackPass (sections_text : List Char) : List CourseSection :=
  (splitOnNL sections_text).filterMap lineSection

/-- `_parse_sections_table` applied to the located `Current Sections` region:
the primary structured pass, and the token-walk fallback pass only when the
primary pass yields no section (source line 255). -/
def parse_sections_region (sections_text : List Char) : List CourseSection :=
  let prim := findPrimary sections_text
  if prim.isEmpty then fallbackPass sections_text else prim

/-- The lazy `.*?` of `Current Sections.*?(?=School of Computing|$)` (source
line 222, `re.DOTALL | re.IGNORECASE`): consume characters until the lookahead
succeeds, i.e. at a case-insensitive `School of Computing`, at the end of the
text, or just before a final newline (`$` without `re.MULTILINE`). -/
def lazyUpto : List Char → List Char
  | [] => []
  | c :: t =>
    if ciHasPre (("school of computing").data) (c :: t) then []
    else if c == '\n' && t.isEmpty then []
    else c :: lazyUpto t

/-- Locate the `Current Sections` region (source lines 222-226): the first
case-insensitive occurrence of the marker, extended lazily as above; `none`
when the marker is absent (the parser then returns no sections). -/
def locateCurrentSections : List Char → Option (List Char)
  | [] => none
  | c :: t =>
    if ciHasPre (("current sections").data) (c :: t) then
      some ((c :: t).take 16 ++ lazyUpto ((c :: t).drop 16))
    else locateCurrentSections t

/-- `PittCoursesClient._parse_sections_table` (source lines 212-312) on the
full page text. -/
def parse_sections_table (text : List Char) : List CourseSection :=
  match locateCurrentSections text with
  | none => []
  | some region => parse_sections_region region

/-- A section region whose line content is well formed but whose times field
uses uppercase `PM`, stepping outside the primary pattern's `[0-9:apmn-]`
times class. -/
def perturbedRegion : List Char :=
  ("Current Sections\n18582 (1100) TuTh 1:00PM-2:15PM LAWRN 104 Marina Barsky LEC").data

/-- The same region in the primary pattern's expected spelling. -/
def wellFormedRegion : List Char :=
  ("Current Sections\n18582 (1100) TuTh 1:00pm-2:15pm LAWRN 104 Marina Barsky LEC").data

/-- Class `Course` of the source; the constructor populates `code`, `title`
and `url`, every other field starts empty/absent (`grade_component` is never
set anywhere). -/
structure Course where
  code : List Char
  title : List Char
  url : List Char
  description : List Char := []
  prerequisites : List Char := []
  corequisites : List Char := []
  credits_min : Option Nat := none
  credits_max : Option Nat := none
  career : List Char := []
  component : List Char := []
  grade_component : List Char := []
  sections : List CourseSection := []
  current_semester : List Char := []
deriving DecidableEq

/-- `int()` on a nonempty digit string. -/
def natOfDigits (ds : List Char) : Nat :=
  ds.foldl (fun n c => n * 10 + (c.toNat - 48)) 0

/-- The group of `MARKER\s*([^·]+)`: after maximal whitespace, a maximal
nonempty run of non-`·` characters; when that run is empty, greedy `\s*`
backtracks one character so the group captures the last whitespace character;
with no whitespace either, the pattern fails at this position. -/
def groupAfterMarker (r : List Char) : Option (List Char) :=
  let g := (r.dropWhile isWsChar).takeWhile (fun c => !(c == '·'))
  if !g.isEmpty then some g
  else
    match (r.takeWhile isWsChar).getLast? with
    | some w => some [w]
    | none => none

/-- `re.search(r'MARKER\s*([^·]+)', text, re.IGNORECASE)` (source lines 174,
179): leftmost position where the case-insensitive marker and its group both
match. -/
def searchMarkerCi (mk : List Char) : List Char → Option (List Char)
  | [] => none
  | c :: tl =>
    match (if ciHasPre mk (c :: tl) then groupAfterMarker ((c :: tl).drop mk.length)
           else none) with
    | some g => some g
    | none => searchMarkerCi mk tl

/-- Case-sensitive variant, for `Course Component:\s*([^·]+)` (source line 195). -/
def searchMarkerCs (mk : List Char) : List Char → Option (List Char)
  | [] => none
  | c :: tl =>
    match (if mk.isPrefixOf (c :: tl) then groupAfterMarker ((c :: tl).drop mk.length)
           else none) with
    | some g => some g
    | none => searchMarkerCs mk tl

/-- `re.search(r'Academic Career:\s*(\w+)', text)` (source line 190). -/
def searchCareer : List Char → Option (List Char)
  | [] => none
  | c :: tl =>
    match (if (("Academic Career:").data).isPrefixOf (c :: tl) then
        (if ((((c :: tl).drop 16).dropWhile isWsChar).takeWhile isWordChar).isEmpty then none
         else some ((((c :: tl).drop 16).dropWhile isWsChar).takeWhile isWordChar))
      else none) with
    | some g => some g
    | none => searchCareer tl

/-- The `\s+([A-Za-z]+ \d{4})` tail of the current-semester pattern at one
position: mandatory whitespace, a letter run, one literal space, four digits. -/
def semTryAt (r : List Char) : Option (List Char) :=
  if (r.takeWhile isWsChar).isEmpty then none
  else
    if ((r.dropWhile isWsChar).takeWhile isAlphaChar).isEmpty then none
    else
      match (r.dropWhile isWsChar).dropWhile isAlphaChar with
      | ' ' :: d1 :: d2 :: d3 :: d4 :: _ =>
        if isDigitChar d1 && isDigitChar d2 && isDigitChar d3 && isDigitChar d4 then
          some ((r.dropWhile isWsChar).takeWhile isAlphaChar ++ ' ' :: [d1, d2, d3, d4])
        else none
      | _ => none

/-- `re.search(r'Current Sections\s+([A-Za-z]+ \d{4})', text)` (source line 200). -/
def searchSemester : List Char → Option (List Char)
  | [] => none
  | c :: tl =>
    match (if (("Current Sections").data).isPrefixOf (c :: tl) then
        semTryAt ((c :: tl).drop 16) else none) with
    | some g => some g
    | none => searchSemester tl

/-- The `\s*(\d+)` tail after `Maximum Credits:` at one position. -/
def maxCreditsTryAt (r : List Char) : Option Nat :=
  if ((r.dropWhile isWsChar).takeWhile isDigitChar).isEmpty then none
  else some (natOfDigits ((r.dropWhile isWsChar).takeWhile isDigitChar))

/-- The lazy `.*?Maximum Credits:\s*(\d+)` continuation: the earliest
`Maximum Credits:` occurrence followed by optional whitespace and a digit run. -/
def searchMaxCredits : List Char → Option Nat
  | [] => none
  | c :: tl =>
    match (if (("Maximum Credits:").data).isPrefixOf (c :: tl) then
        maxCreditsTryAt ((c :: tl).drop 16) else none) with
    | some n => some n
    | none => searchMaxCredits tl

/-- The tail after `Minimum Credits:` at one position: `\s*(\d+)` then the
lazy search for the maximum-credits clause in the remainder. -/
def minCreditsTryAt (r : List Char) : Option (Nat × Nat) :=
  if ((r.dropWhile isWsChar).takeWhile isDigitChar).isEmpty then none
  else
    match searchMaxCredits ((r.dropWhile isWsChar).dropWhile isDigitChar) with
    | some n2 => some (natOfDigits ((r.dropWhile isWsChar).takeWhile isDigitChar), n2)
    | none => none

/-- `re.search(r'Minimum Credits:\s*(\d+).*?Maximum Credits:\s*(\d+)', text,
re.DOTALL)` (source line 184): both captured integers, or nothing. -/
def searchCredits : List Char → Option (Nat × Nat)
  | [] => none
  | c :: tl =>
    match (if (("Minimum Credits:").data).isPrefixOf (c :: tl) then
        minCreditsTryAt ((c :: tl).drop 16) else none) with
    | some p => some p
    | none => searchCredits tl

/-- What `_parse_course_details` reads from the fetched page: the text of the
first paragraph-like element (`soup.find('p') or soup.find('div',
class_='description')`), when one exists, and the full page text
(`soup.get_text()`). -/
structure Page where
  firstPara : Option (List Char)
  text : List Char
deriving DecidableEq

/-- The field-extraction body of `_parse_course_details` (source lines
162-205): each recognizer sets its own field on a match and leaves it
unchanged on a non-match; the source's sequential in-place writes touch
pairwise disjoint fields, so they are presented as one record update.  Every
recognizer is a total function, so extraction never fails once the page is
fetched. -/
def extractDetails (course : Course) (page : Page) : Course :=
  { course with
    description := (match page.firstPara with
      | some t => stripWs t
      | none => course.description),
    prerequisites := (match searchMarkerCi (("preq:").data) page.text with
      | some g => stripWs g
      | none => course.prerequisites),
    corequisites := (match searchMarkerCi (("creq:").data) page.text with
      | some g => stripWs g
      | none => course.corequisites),
    credits_min := (match searchCredits page.text with
      | some p => some p.1
      | none => course.credits_min),
    credits_max := (match searchCredits page.text with
      | some p => some p.2
      | none => course.credits_max),
    career := (match searchCareer page.text with
      | some g => g
      | none => course.career),
    component := (match searchMarkerCs (("Course Component:").data) page.text with
      | some g => stripWs g
      | none => course.component),
    current_semester := (match searchSemester page.text with
      | some g => g
      | none => course.current_semester),
    sections := parse_sections_table page.text }

/-- `PittCoursesClient._parse_course_details` (source lines 159-210): the
whole body runs under `try/except`; the only fallible step is the page fetch
(its first statement), so on a fetch failure the except clause returns the
course unchanged, and otherwise the total extraction body runs. -/
def parse_course_details (course : Course) (fetch : Except Unit Page) : Course :=
  match fetch with
  | Except.error _ => course
  | Except.ok page => extractDetails course page

/-- The two caches of `PittCoursesClient` (source lines 124-126); the Python
dict is modelled as an association list in which an insert shadows earlier
entries for the same key. -/
structure ClientState where
  courses_cache : List (List Char × Course)
  courses_list_cache : List Course
deriving DecidableEq

def cacheLookup (cache : List (List Char × Course)) (k : List Char) : Option Course :=
  (cache.find? (fun p => p.1 == k)).map (fun p => p.2)

def cacheInsert (cache : List (List Char × Course)) (k : List Char) (v : Course) :
    List (List Char × Course) :=
  (k, v) :: cache

/-- `PittCoursesClient.get_all_courses` (source lines 314-326); the external
fetch+list-parse result is passed in as `fetched`.  On the fetch path the list
cache is replaced and the detail cache receives one insert per listed course,
keyed by the raw listing code — pre-existing entries under other keys are not
removed. -/
def get_all_courses (st : ClientState) (refresh : Bool) (fetched : List Course) :
    List Course × ClientState :=
  if !refresh && !st.courses_list_cache.isEmpty then (st.courses_list_cache, st)
  else
    (fetched,
     { courses_list_cache := fetched,
       courses_cache :=
         fetched.foldl (fun cc c => cacheInsert cc c.code c) st.courses_cache })

/-- The course the refresh loop's final write leaves under listing code `k`:
the last course of the listing whose raw code is `k` (the source loop
`for course in courses: self.courses_cache[course.code] = course` lets a
later duplicate overwrite an earlier one). -/
def listingEntry (fetched : List Course) (k : List Char) : Option Course :=
  fetched.reverse.find? (fun c => c.code == k)

/-- `course_code.upper().replace(' ', '-')` (source line 330). -/
def normCode (s : List Char) : List Char :=
  (s.map upperChar).map (fun c => if c == ' ' then '-' else c)

/-- `c.code.replace(' ', '-')` (source line 340). -/
def replDash (s : List Char) : List Char :=
  s.map (fun c => if c == ' ' then '-' else c)

/-- The lookup-and-extract tail of `get_course_details` (source lines
338-349): find the course in the current listing by dash-normalized code, run
detail extraction, and cache the result under the normalized query code. -/
def getCourseDetailsFetch (st : ClientState) (code : List Char)
    (fetchedList : List Course) (fetchPage : Except Unit Page) :
    Option Course × ClientState :=
  let pr := get_all_courses st false fetchedList
  match pr.1.find? (fun c => replDash c.code == code) with
  | none => (none, pr.2)
  | some course =>
    (some (parse_course_details course fetchPage),
     { pr.2 with
       courses_cache :=
         cacheInsert pr.2.courses_cache code (parse_course_details course fetchPage) })

/-- `PittCoursesClient.get_course_details` (source lines 328-349): normalize
the code; a cached course that already has a description is returned
unchanged; otherwise the listing is consulted (fetching it when the list cache
is empty) and detail extraction runs. -/
def get_course_details (st : ClientState) (course_code : List Char)
    (fetchedList : List Course) (fetchPage : Except Unit Page) :
    Option Course × ClientState :=
  match cacheLookup st.courses_cache (normCode course_code) with
  | some course =>
    if course.description.isEmpty then
      getCourseDetailsFetch st (normCode course_code) fetchedList fetchPage
    else (some course, st)
  | none => getCourseDetailsFetch st (normCode course_code) fetchedList fetchPage

/-- Case-insensitive substring test: Python `needle in hay` after `.lower()`
on both sides. -/
def isSubCi (needle hay : List Char) : Bool :=
  decide ((needle.map lowerChar) <:+: (hay.map lowerChar))

/-- The department prefix computed by `search_courses` (source line 365):
`code.split('-')[0]` when the code contains a hyphen, else
`code.split(' ')[0]`. -/
def deptOfCode (code : List Char) : List Char :=
  if code.contains '-' then code.takeWhile (fun c => !(c == '-'))
  else code.takeWhile (fun c => !(c == ' '))

/-- `PittCoursesClient.search_courses` (source lines 351-371): the filtering
loop over the current listing, with the source's `continue`-based department
check (skipped entirely for a missing or empty department argument). -/
def search_courses (courses : List Course) (query : List Char)
    (department : Option (List Char)) : List Course :=
  match courses with
  | [] => []
  | course :: rest =>
    if isSubCi query course.code || isSubCi query course.title ||
        (!course.description.isEmpty && isSubCi query course.description) then
      match department with
      | some dep =>
        if !dep.isEmpty then
          if !((deptOfCode course.code).map upperChar == dep.map upperChar) then
            search_courses rest query department
          else course :: search_courses rest query department
        else course :: search_courses rest query department
      | none => course :: search_courses rest query department
    else search_courses rest query department

/-- The per-course predicate realized by `search_courses`: query matches code,
title, or nonempty description case-insensitively, and the (nonempty)
department argument, when given, equals the hyphen-first department prefix
case-insensitively. -/
def searchMatchPred (query : List Char) (department : Option (List Char))
    (c : Course) : Bool :=
  (isSubCi query c.code || isSubCi query c.title ||
    (!c.description.isEmpty && isSubCi query c.description)) &&
  (match department with
   | some dep =>
     if !dep.isEmpty then (deptOfCode c.code).map upperChar == dep.map upperChar
     else true
   | none => true)

/-- The department prefix in the claim's words: the portion of the code before
its first separator (hyphen or space, whichever comes first). -/
def specDeptOf (code : List Char) : List Char :=
  code.takeWhile (fun c => !(c == '-') && !(c == ' '))

/-- The per-course predicate in the claim's words, using the first-separator
department prefix. -/
def searchClaimPred (query : List Char) (department : Option (List Char))
    (c : Course) : Bool :=
  (isSubCi query c.code || isSubCi query c.title ||
    (!c.description.isEmpty && isSubCi query c.description)) &&
  (match department with
   | some dep =>
     if !dep.isEmpty then (specDeptOf c.code).map upperChar == dep.map upperChar
     else true
   | none => true)

/-- The outcome of one `handle_call_tool` branch before any client work: an
immediate textual reply, a method-not-found error, or the first catalog-client
call the handler proceeds to. -/
inductive ToolAction where
  | respondText (msg : List Char)
  | methodNotFound (msg : List Char)
  | searchCall (query : List Char) (department : Option (List Char))
  | detailsCall (course_code : List Char)
  | listCall (department : List Char)
deriving DecidableEq

/-- `arguments.get(key)` on the flat argument record. -/
def getArg (args : List (List Char × List Char)) (k : List Char) : Option (List Char) :=
  (args.find? (fun p => p.1 == k)).map (fun p => p.2)

/-- `arguments.get(key, "")`. -/
def getArgD (args : List (List Char × List Char)) (k : List Char) : List Char :=
  (getArg args k).getD []

/-- The pre-client control flow of `handle_call_tool` (source lines 507-829):
`search_courses`, `get_course_details`, `list_courses_by_department` and
`get_course_sections` reject an empty required argument with a plain textual
message before calling the client; `get_prerequisites` (line 623) and
`find_prerequisite_chain` (line 695) have no such check and pass the argument
straight to `client.get_course_details`; an unknown name raises
`McpError(ErrorCode.METHOD_NOT_FOUND, ...)` (line 829). -/
def dispatchAction (name : List Char) (args : List (List Char × List Char)) :
    ToolAction :=
  if name == ("search_courses").data then
    if (getArgD args (("query").data)).isEmpty then
      ToolAction.respondText (("Query parameter is required").data)
    else
      ToolAction.searchCall (getArgD args (("query").data))
        (getArg args (("department").data))
  else if name == ("get_course_details").data then
    if (getArgD args (("course_code").data)).isEmpty then
      ToolAction.respondText (("Course code is required").data)
    else ToolAction.detailsCall (getArgD args (("course_code").data))
  else if name == ("get_prerequisites").data then
    ToolAction.detailsCall (getArgD args (("course_code").data))
  else if name == ("list_courses_by_department").data then
    if (getArgD args (("department").data)).isEmpty then
      ToolAction.respondText (("Department parameter is required").data)
    else ToolAction.listCall (getArgD args (("department").data))
  else if name == ("find_prerequisite_chain").data then
    ToolAction.detailsCall (getArgD args (("course_code").data))
  else if name == ("get_course_sections").data then
    if (getArgD args (("course_code").data)).isEmpty then
      ToolAction.respondText (("Course code is required").data)
    else ToolAction.detailsCall (getArgD args (("course_code").data))
  else ToolAction.methodNotFound ((("Unknown tool: ").data) ++ name)

/-- `description[:200] + ('...' if len(description) > 200 else '')`
(source line 531). -/
def truncDesc (d : List Char) : List Char :=
  d.take 200 ++ (if 200 < d.length then ("...").data else [])

/-- The lines appended for one rendered search hit (source lines 528-532). -/
def searchEntryLines (c : Course) : List (List Char) :=
  [("**").data ++ c.code ++ ("**: ").data ++ c.title] ++
    (if !c.description.isEmpty then [("  ").data ++ truncDesc c.description] else []) ++
    [[]]

/-- The search_courses tool's text rendering (source lines 526-537): the
format loop runs over `results[:20]` only. -/
def renderSearchResults (results : List Course) : List (List Char) :=
  ((results.take 20).map searchEntryLines).flatten

/-- A listing of 21 identical matching courses, for the render-truncation
demonstration. -/
def bigListing : List Course :=
  List.replicate 21 { code := ("CS-0445").data, title := ("T").data, url := [] }

/-- A freshly listed (shallow) course, for witnesses. -/
def freshCourse : Course :=
  { code := ("CS-0445").data, title := ("Data Structures").data, url := ("u").data }

/-- A page whose text contains a `Minimum Credits:` marker but no
`Maximum Credits:` marker. -/
def minOnlyPage : Page :=
  { firstPara := none, text := ("Minimum Credits: 3 and nothing else").data }

/-- A detailed course sitting in the detail cache. -/
def detailedCourse : Course :=
  { code := ("CS-0445").data, title := ("T").data, url := [],
    description := ("Detailed description").data }

/-- Another course, the sole member of the refreshed listing. -/
def otherCourse : Course :=
  { code := ("CS-1501").data, title := ("Algs").data, url := [] }

/-- A state holding the detailed course in the detail cache. -/
def staleState : ClientState :=
  { courses_cache := [((("CS-0445").data), detailedCourse)],
    courses_list_cache := [otherCourse] }

/-- Two course-code characters that differ only in case, or are both
separators (space versus hyphen). -/
def codeCharEquiv (c d : Char) : Prop :=
  upperChar c = upperChar d ∨ ((c = ' ' ∨ c = '-') ∧ (d = ' ' ∨ d = '-'))

/-- Two course-code arguments that differ only in case or in spaces versus
hyphens, position by position. -/
def codeEquiv (a b : List Char) : Prop :=
  List.Forall₂ codeCharEquiv a b

/-- A course whose code contains a space before its hyphen, separating the
source's hyphen-first prefix rule from the claim's first-separator rule. -/
def oddCourse : Course :=
  { code := ("A B-1234").data, title := [], url := [] }

theorem first4Digits_eq_some {l ds : List Char} (h : first4Digits l = some ds) :
    ∃ d1 d2 d3 d4 tl, l = d1 :: d2 :: d3 :: d4 :: tl ∧ ds = [d1, d2, d3, d4] ∧
      isDigitChar d1 = true ∧ isDigitChar d2 = true ∧ isDigitChar d3 = true ∧
      isDigitChar d4 = true := by
  rcases l with _ | ⟨d1, _ | ⟨d2, _ | ⟨d3, _ | ⟨d4, tl⟩⟩⟩⟩ <;>
    simp only [first4Digits] at h
  · exact absurd h (by simp)
  · exact absurd h (by simp)
  · exact absurd h (by simp)
  · exact absurd h (by simp)
  · split at h
    · rename_i hd
      simp only [Bool.and_eq_true] at hd
      exact ⟨d1, d2, d3, d4, tl, rfl, (Option.some.inj h).symm,
        hd.1.1.1, hd.1.1.2, hd.1.2, hd.2⟩
    · exact absurd h (by simp)

theorem trySubMatch_eq_some {s rep rest : List Char}
    (h : trySubMatch s = some (rep, rest)) :
    ∃ w sp ds,
      w = s.takeWhile isWordChar ∧ w ≠ [] ∧
      sp = (s.dropWhile isWordChar).takeWhile isWsChar ∧ sp ≠ [] ∧
      first4Digits ((s.dropWhile isWordChar).dropWhile isWsChar) = some ds ∧
      rep = w ++ '-' :: ds ∧
      rest = ((s.dropWhile isWordChar).dropWhile isWsChar).drop 4 := by
  unfold trySubMatch at h
  by_cases hw : (s.takeWhile isWordChar).isEmpty
  · rw [if_pos hw] at h; exact absurd h (by simp)
  · rw [if_neg hw] at h
    by_cases hsp : ((s.dropWhile isWordChar).takeWhile isWsChar).isEmpty
    · rw [if_pos hsp] at h; exact absurd h (by simp)
    · rw [if_neg hsp] at h
      cases hds : first4Digits ((s.dropWhile isWordChar).dropWhile isWsChar) with
      | none => rw [hds] at h; exact absurd h (by simp)
      | some ds =>
        rw [hds] at h
        obtain ⟨h1, h2⟩ := Prod.mk.inj (Option.some.inj h)
        refine ⟨s.takeWhile isWordChar, (s.dropWhile isWordChar).takeWhile isWsChar, ds,
          rfl, ?_, rfl, ?_, rfl, h1.symm, h2.symm⟩
        · intro hnil; exact hw (by rw [hnil]; rfl)
        · intro hnil; exact hsp (by rw [hnil]; rfl)

/-- The matched span of a successful `trySubMatch` decomposes the input. -/
theorem trySubMatch_decomp {s rep rest : List Char}
    (h : trySubMatch s = some (rep, rest)) :
    ∃ w sp ds,
      s = w ++ sp ++ ds ++ rest ∧ rep = w ++ '-' :: ds ∧
      w ≠ [] ∧ (∀ c ∈ w, isWordChar c = true) ∧
      sp ≠ [] ∧ (∀ c ∈ sp, isWsChar c = true) ∧
      ds.length = 4 ∧ (∀ c ∈ ds, isDigitChar c = true) := by
  obtain ⟨w, sp, ds, hw, hwne, hsp, hspne, hds, hrep, hrest⟩ := trySubMatch_eq_some h
  obtain ⟨d1, d2, d3, d4, tl, hl, hds4, h1, h2, h3, h4⟩ := first4Digits_eq_some hds
  refine ⟨w, sp, ds, ?_, hrep, hwne, ?_, hspne, ?_, ?_, ?_⟩
  · have e1 : w ++ s.dropWhile isWordChar = s := by
      rw [hw]; exact List.takeWhile_append_dropWhile isWordChar s
    have e2 : sp ++ (s.dropWhile isWordChar).dropWhile isWsChar = s.dropWhile isWordChar := by
      rw [hsp]; exact List.takeWhile_append_dropWhile isWsChar (s.dropWhile isWordChar)
    have e3 : (s.dropWhile isWordChar).dropWhile isWsChar = ds ++ rest := by
      rw [hl, hds4, hrest, hl]; rfl
    calc s = w ++ s.dropWhile isWordChar := e1.symm
    _ = w ++ (sp ++ (s.dropWhile isWordChar).dropWhile isWsChar) := by rw [e2]
    _ = w ++ sp ++ ds ++ rest := by rw [e3]; simp [List.append_assoc]
  · intro c hc; rw [hw] at hc; exact List.mem_takeWhile_imp hc
  · intro c hc; rw [hsp] at hc; exact List.mem_takeWhile_imp hc
  · rw [hds4]; rfl
  · intro c hc
    rw [hds4] at hc
    simp only [List.mem_cons, List.mem_singleton, List.not_mem_nil, or_false] at hc
    rcases hc with rfl | rfl | rfl | rfl <;> assumption

theorem trySubMatch_some_length {s rep rest : List Char}
    (h : trySubMatch s = some (rep, rest)) : rest.length + 6 ≤ s.length := by
  obtain ⟨w, sp, ds, hs, _, hwne, _, hspne, _, hdslen, _⟩ := trySubMatch_decomp h
  have hw1 : 1 ≤ w.length := List.length_pos.mpr hwne
  have hsp1 : 1 ≤ sp.length := List.length_pos.mpr hspne
  have : s.length = w.length + sp.length + ds.length + rest.length := by
    rw [hs]; simp [List.length_append]; omega
  omega

theorem subSpacedF_fuel :
    ∀ f g s, s.length ≤ f → s.length ≤ g → subSpacedF f s = subSpacedF g s := by
  intro f
  induction f with
  | zero =>
    intro g s hf _
    have : s = [] := List.eq_nil_of_length_eq_zero (Nat.le_zero.mp hf)
    subst this
    cases g <;> rfl
  | succ f ih =>
    intro g s hf hg
    cases s with
    | nil => cases g <;> rfl
    | cons c cs =>
      cases g with
      | zero => simp at hg
      | succ g' =>
        simp only [subSpacedF]
        cases h : trySubMatch (c :: cs) with
        | some p =>
          obtain ⟨rep, rest⟩ := p
          have hlen := trySubMatch_some_length h
          simp only [List.length_cons] at hf hg hlen
          exact congrArg (rep ++ ·) (ih g' rest (by omega) (by omega))
        | none =>
          simp only [List.length_cons] at hf hg
          exact congrArg (c :: ·) (ih g' cs (by omega) (by omega))

theorem subSpaced_nil : subSpaced [] = [] := rfl

theorem subSpaced_cons_some {c : Char} {cs rep rest : List Char}
    (h : trySubMatch (c :: cs) = some (rep, rest)) :
    subSpaced (c :: cs) = rep ++ subSpaced rest := by
  have hlen := trySubMatch_some_length h
  simp only [List.length_cons] at hlen
  show subSpacedF (cs.length + 1) (c :: cs) = _
  simp only [subSpacedF, h]
  exact congrArg (rep ++ ·) (subSpacedF_fuel cs.length rest.length rest (by omega) (le_refl _))

theorem subSpaced_cons_none {c : Char} {cs : List Char}
    (h : trySubMatch (c :: cs) = none) :
    subSpaced (c :: cs) = c :: subSpaced cs := by
  show subSpacedF (cs.length + 1) (c :: cs) = _
  simp only [subSpacedF, h]
  rfl

theorem tryKWMatch_some_length {kw s r : List Char}
    (h : tryKWMatch kw s = some r) : r.length < s.length := by
  unfold tryKWMatch at h
  by_cases h1 : (s.takeWhile isWsChar).isEmpty
  · rw [if_pos h1] at h; exact absurd h (by simp)
  · rw [if_neg h1] at h
    by_cases h2 : ciHasPre kw (s.dropWhile isWsChar)
    · rw [if_pos h2] at h
      by_cases h3 : (((s.dropWhile isWsChar).drop kw.length).takeWhile isWsChar).isEmpty
      · rw [if_pos h3] at h; exact absurd h (by simp)
      · rw [if_neg h3] at h
        have hr : r = ((s.dropWhile isWsChar).drop kw.length).dropWhile isWsChar :=
          (Option.some.inj h).symm
        have e1 : s.takeWhile isWsChar ++ s.dropWhile isWsChar = s :=
          List.takeWhile_append_dropWhile isWsChar s
        set r2 := (s.dropWhile isWsChar).drop kw.length with hr2
        have e2 : r2.takeWhile isWsChar ++ r2.dropWhile isWsChar = r2 :=
          List.takeWhile_append_dropWhile isWsChar r2
        have l1 : 1 ≤ (s.takeWhile isWsChar).length := by
          cases hss : s.takeWhile isWsChar with
          | nil => rw [hss] at h1; exact absurd rfl h1
          | cons a l => simp [hss]
        have l3 : 1 ≤ (r2.takeWhile isWsChar).length := by
          cases hss : r2.takeWhile isWsChar with
          | nil => rw [hss] at h3; exact absurd rfl h3
          | cons a l => simp [hss]
        have e1l : (s.takeWhile isWsChar).length + (s.dropWhile isWsChar).length = s.length := by
          rw [← List.length_append, e1]
        have e2l : (r2.takeWhile isWsChar).length + (r2.dropWhile isWsChar).length = r2.length := by
          rw [← List.length_append, e2]
        have hr2l : r2.length ≤ (s.dropWhile isWsChar).length := by
          rw [hr2]; simp
        rw [hr]
        omega
    · rw [if_neg h2] at h; exact absurd h (by simp)

theorem splitKWAuxF_fuel (kw : List Char) :
    ∀ f g acc s, s.length ≤ f → s.length ≤ g →
      splitKWAuxF kw f acc s = splitKWAuxF kw g acc s := by
  intro f
  induction f with
  | zero =>
    intro g acc s hf _
    have : s = [] := List.eq_nil_of_length_eq_zero (Nat.le_zero.mp hf)
    subst this
    cases g <;> rfl
  | succ f ih =>
    intro g acc s hf hg
    cases s with
    | nil => cases g <;> rfl
    | cons c cs =>
      cases g with
      | zero => simp at hg
      | succ g' =>
        simp only [splitKWAuxF]
        cases h : tryKWMatch kw (c :: cs) with
        | some rest =>
          have hlen := tryKWMatch_some_length h
          simp only [List.length_cons] at hf hg hlen
          exact congrArg (acc.reverse :: ·) (ih g' [] rest (by omega) (by omega))
        | none =>
          simp only [List.length_cons] at hf hg
          exact ih g' (c :: acc) cs (by omega) (by omega)

theorem splitKWAux_nil (kw acc : List Char) : splitKWAux kw acc [] = [acc.reverse] := rfl

theorem splitKWAux_cons_some {kw : List Char} {c : Char} {cs rest : List Char}
    (acc : List Char) (h : tryKWMatch kw (c :: cs) = some rest) :
    splitKWAux kw acc (c :: cs) = acc.reverse :: splitKWAux kw [] rest := by
  have hlen := tryKWMatch_some_length h
  simp only [List.length_cons] at hlen
  show splitKWAuxF kw (cs.length + 1) acc (c :: cs) = _
  simp only [splitKWAuxF, h]
  exact congrArg (acc.reverse :: ·)
    (splitKWAuxF_fuel kw cs.length rest.length [] rest (by omega) (le_refl _))

theorem splitKWAux_cons_none {kw : List Char} {c : Char} {cs : List Char}
    (acc : List Char) (h : tryKWMatch kw (c :: cs) = none) :
    splitKWAux kw acc (c :: cs) = splitKWAux kw (c :: acc) cs := by
  show splitKWAuxF kw (cs.length + 1) acc (c :: cs) = _
  simp only [splitKWAuxF, h]
  rfl

theorem isWsChar_cases {c : Char} (h : isWsChar c = true) :
    c.toNat = 32 ∨ c.toNat = 9 ∨ c.toNat = 10 ∨ c.toNat = 13 ∨ c.toNat = 11 ∨ c.toNat = 12 := by
  simp only [isWsChar, Bool.or_eq_true, beq_iff_eq] at h
  tauto

theorem word_not_ws {c : Char} (h : isWordChar c = true) : isWsChar c = false := by
  rcases hw : isWsChar c with _ | _
  · rfl
  · exfalso
    have := isWsChar_cases hw
    simp only [isWordChar, isAlphaChar, isUpperAZ, isLowerAZ, isDigitChar,
      Bool.or_eq_true, Bool.and_eq_true, decide_eq_true_eq, beq_iff_eq] at h
    omega

theorem upper_not_ws {c : Char} (h : isUpperAZ c = true) : isWsChar c = false :=
  word_not_ws (by simp [isWordChar, isAlphaChar, h])

theorem digit_not_ws {c : Char} (h : isDigitChar c = true) : isWsChar c = false :=
  word_not_ws (by simp [isWordChar, h])

theorem digit_not_upper {c : Char} (h : isDigitChar c = true) : isUpperAZ c = false := by
  rcases hu : isUpperAZ c with _ | _
  · rfl
  · exfalso
    simp only [isDigitChar, Bool.and_eq_true, decide_eq_true_eq] at h
    simp only [isUpperAZ, Bool.and_eq_true, decide_eq_true_eq] at hu
    omega

theorem digit_ne_hyphen {c : Char} (h : isDigitChar c = true) : (c == '-') = false := by
  rcases he : c == '-' with _ | _
  · rfl
  · exfalso
    have : c = '-' := by exact beq_iff_eq.mp he
    subst this
    exact absurd h (by decide)

theorem upper_word {c : Char} (h : isUpperAZ c = true) : isWordChar c = true := by
  simp [isWordChar, isAlphaChar, h]

theorem digit_word {c : Char} (h : isDigitChar c = true) : isWordChar c = true := by
  simp [isWordChar, h]

/-- `takeWhile`/`dropWhile` on a list that starts with a `p`-true block followed
by a `p`-false character. -/
theorem span_append {p : Char → Bool} {a : List Char} {c : Char} (b : List Char)
    (ha : ∀ x ∈ a, p x = true) (hc : p c = false) :
    (a ++ c :: b).takeWhile p = a ∧ (a ++ c :: b).dropWhile p = c :: b := by
  induction a with
  | nil =>
    simp only [List.nil_append]
    exact ⟨List.takeWhile_cons_of_neg (by simp [hc]), List.dropWhile_cons_of_neg (by simp [hc])⟩
  | cons x a' ih =>
    have hx : p x = true := ha x (by simp)
    have ih' := ih (fun y hy => ha y (by simp [hy]))
    simp only [List.cons_append]
    exact ⟨by rw [List.takeWhile_cons_of_pos hx, ih'.1],
           by rw [List.dropWhile_cons_of_pos hx, ih'.2]⟩

theorem noWsDig_nil : NoWsDig [] := by
  intro a b w d h _ _
  exact absurd h (by simp)

theorem noWsDig_tail {c : Char} {l : List Char} (h : NoWsDig (c :: l)) : NoWsDig l := by
  intro a b w d hl hw hd
  exact h (c :: a) b w d (by simp [hl]) hw hd

theorem noWsDig_append {A B : List Char}
    (hA : ∀ c ∈ A, isWsChar c = false) (hB : NoWsDig B) : NoWsDig (A ++ B) := by
  induction A with
  | nil => simpa using hB
  | cons x A' ih =>
    intro a b w d hl hw hd
    cases a with
    | nil =>
      simp only [List.nil_append, List.cons_append, List.cons.injEq] at hl
      rcases hl with ⟨rfl, _⟩
      exact absurd hw (by simp [hA x (by simp)])
    | cons y a' =>
      simp only [List.cons_append, List.cons.injEq] at hl
      exact ih (fun c hc => hA c (by simp [hc])) a' b w d hl.2 hw hd

theorem noWsDig_cons {c : Char} {l : List Char} (hl : NoWsDig l)
    (h : isWsChar c = false ∨ ∀ d tl, l = d :: tl → isDigitChar d = false) :
    NoWsDig (c :: l) := by
  intro a b w d hdecomp hw hd
  cases a with
  | nil =>
    simp only [List.nil_append, List.cons.injEq] at hdecomp
    rcases hdecomp with ⟨rfl, hdecomp⟩
    rcases h with hc | hhead
    · exact absurd hw (by simp [hc])
    · exact absurd hd (by simp [hhead d b hdecomp])
  | cons y a' =>
    simp only [List.cons_append, List.cons.injEq] at hdecomp
    exact hl a' b w d hdecomp.2 hw hd

theorem noWsDig_of_all_nonws {l : List Char} (h : ∀ c ∈ l, isWsChar c = false) :
    NoWsDig l := by
  have := noWsDig_append h noWsDig_nil
  simpa using this

/-- On a list with no whitespace-then-digit pair, the substitution pattern
`(\w+)\s+(\d{4})` never matches. -/
theorem trySubMatch_none_of_noWsDig {l : List Char} (h : NoWsDig l) :
    trySubMatch l = none := by
  cases hm : trySubMatch l with
  | none => rfl
  | some p =>
    exfalso
    obtain ⟨rep, rest⟩ := p
    obtain ⟨w, sp, ds, hl, _, _, _, hspne, hspws, hdslen, hdsdig⟩ := trySubMatch_decomp hm
    obtain ⟨d1, ds', rfl⟩ : ∃ d1 ds', ds = d1 :: ds' := by
      cases ds with
      | nil => simp at hdslen
      | cons d1 ds' => exact ⟨d1, ds', rfl⟩
    rcases List.eq_nil_or_concat sp with rfl | ⟨spl, wl, rfl⟩
    · exact hspne rfl
    · have hdecomp : l = (w ++ spl) ++ wl :: d1 :: (ds' ++ rest) := by
        rw [hl]; simp [List.append_assoc]
      exact h (w ++ spl) (ds' ++ rest) wl d1 hdecomp
        (hspws wl (by simp)) (hdsdig d1 (by simp))

/-- On a list with no whitespace-then-digit pair, `re.sub(r'(\w+)\s+(\d{4})', ...)`
is the identity. -/
theorem subSpaced_eq_self {l : List Char} (h : NoWsDig l) : subSpaced l = l := by
  induction l with
  | nil => rfl
  | cons c cs ih =>
    rw [subSpaced_cons_none (trySubMatch_none_of_noWsDig h), ih (noWsDig_tail h)]

theorem fourDigitsExact_elim {l : List Char} (h : fourDigitsExact l = true) :
    l.length = 4 ∧ ∀ c ∈ l, isDigitChar c = true := by
  simp only [fourDigitsExact, Bool.and_eq_true, beq_iff_eq, List.all_eq_true] at h
  exact h

/-- Structure of a code-shaped token: a nonempty run of uppercase letters, an
optional hyphen, then exactly four digits. -/
theorem codeShape_elim {s : List Char} (h : codeShape s = true) :
    ∃ u d, u ≠ [] ∧ (∀ c ∈ u, isUpperAZ c = true) ∧
      d.length = 4 ∧ (∀ c ∈ d, isDigitChar c = true) ∧
      (s = u ++ d ∨ s = u ++ '-' :: d) := by
  simp only [codeShape, Bool.and_eq_true, Bool.or_eq_true, Bool.not_eq_eq_eq_not,
    Bool.not_true] at h
  obtain ⟨hne, hd⟩ := h
  have hsplit : s.takeWhile isUpperAZ ++ s.dropWhile isUpperAZ = s :=
    List.takeWhile_append_dropWhile isUpperAZ s
  have hmem : ∀ c ∈ s.takeWhile isUpperAZ, isUpperAZ c = true :=
    fun c hc => List.mem_takeWhile_imp hc
  have hne' : s.takeWhile isUpperAZ ≠ [] := by
    intro hnil; rw [hnil] at hne; exact absurd hne (by simp)
  rcases hd with hd | hd
  · obtain ⟨hlen, hdig⟩ := fourDigitsExact_elim hd
    exact ⟨s.takeWhile isUpperAZ, s.dropWhile isUpperAZ, hne', hmem, hlen, hdig,
      Or.inl hsplit.symm⟩
  · obtain ⟨hhead, hd4⟩ := hd
    cases hr : s.dropWhile isUpperAZ with
    | nil => rw [hr] at hhead; exact absurd hhead (by simp)
    | cons c tl =>
      rw [hr] at hhead hd4
      have hc : c = '-' := by simpa using hhead
      subst hc
      simp only [List.tail_cons] at hd4
      obtain ⟨hlen, hdig⟩ := fourDigitsExact_elim hd4
      refine ⟨s.takeWhile isUpperAZ, tl, hne', hmem, hlen, hdig, Or.inr ?_⟩
      conv_lhs => rw [← hsplit]
      rw [hr]

theorem upper_not_digit {c : Char} (h : isUpperAZ c = true) : isDigitChar c = false := by
  rcases hd : isDigitChar c with _ | _
  · rfl
  · exfalso
    simp only [isDigitChar, Bool.and_eq_true, decide_eq_true_eq] at hd
    simp only [isUpperAZ, Bool.and_eq_true, decide_eq_true_eq] at h
    omega

theorem codeShape_all_nonws {s : List Char} (h : codeShape s = true) :
    ∀ c ∈ s, isWsChar c = false := by
  obtain ⟨u, d, _, hu, _, hd, hs | hs⟩ := codeShape_elim h <;> subst hs <;> intro c hc
  · rcases List.mem_append.mp hc with hc | hc
    · exact upper_not_ws (hu c hc)
    · exact digit_not_ws (hd c hc)
  · rcases List.mem_append.mp hc with hc | hc
    · exact upper_not_ws (hu c hc)
    · rcases List.mem_cons.mp hc with rfl | hc
      · decide
      · exact digit_not_ws (hd c hc)

theorem codeShape_cons {s : List Char} (h : codeShape s = true) :
    ∃ y tl, s = y :: tl ∧ isUpperAZ y = true := by
  obtain ⟨u, d, hne, hu, _, _, hs | hs⟩ := codeShape_elim h <;>
    obtain ⟨y, u', rfl⟩ : ∃ y u', u = y :: u' := by
      cases u with
      | nil => exact absurd rfl hne
      | cons y u' => exact ⟨y, u', rfl⟩
  · exact ⟨y, u' ++ d, by simp [hs], hu y (by simp)⟩
  · exact ⟨y, u' ++ '-' :: d, by simp [hs], hu y (by simp)⟩

theorem codeShape_length5 {s : List Char} (h : codeShape s = true) : 5 ≤ s.length := by
  obtain ⟨u, d, hne, _, hlen, _, hs | hs⟩ := codeShape_elim h <;> subst hs <;>
  · have := List.length_pos.mpr hne
    simp only [List.length_append, List.length_cons, hlen]
    omega

theorem headNonWs_cons {c : Char} {l : List Char} (h : isWsChar c = false) :
    HeadNonWs (c :: l) := by
  intro c' tl hl
  obtain ⟨rfl, -⟩ := List.cons.inj hl
  exact h

theorem headNonWs_nil : HeadNonWs ([] : List Char) := by
  intro c tl h
  exact absurd h (by simp)

theorem headNonWs_codeShape_append {Y B : List Char} (hY : codeShape Y = true) :
    HeadNonWs (Y ++ B) := by
  obtain ⟨y, tl, rfl, hy⟩ := codeShape_cons hY
  exact headNonWs_cons (upper_not_ws hy)

theorem headNonWs_codeShape_append_drop2 {Y B : List Char} (hY : codeShape Y = true) :
    HeadNonWs ((Y ++ B).drop 2) := by
  have h5 := codeShape_length5 hY
  rw [List.drop_append_of_le_length (by omega)]
  rw [List.drop_eq_getElem_cons (by omega : 2 < Y.length)]
  exact headNonWs_cons (codeShape_all_nonws hY _ (List.getElem_mem _))

theorem takeWhile_ws_eq_nil_of_head {l : List Char} (h : HeadNonWs l) :
    l.takeWhile isWsChar = [] := by
  cases l with
  | nil => rfl
  | cons c tl => exact List.takeWhile_cons_of_neg (by simp [h c tl rfl])

theorem dropWhile_ws_eq_self_of_head {l : List Char} (h : HeadNonWs l) :
    l.dropWhile isWsChar = l := by
  cases l with
  | nil => rfl
  | cons c tl => exact List.dropWhile_cons_of_neg (by simp [h c tl rfl])

theorem tryKWMatch_none_of_head {kw : List Char} {c : Char} {cs : List Char}
    (h : isWsChar c = false) : tryKWMatch kw (c :: cs) = none := by
  unfold tryKWMatch
  rw [List.takeWhile_cons_of_neg (by simp [h])]
  simp

/-- At a single space whose continuation does not look like `KW␣`, the split
pattern does not match: either the keyword letters fail, or no whitespace
follows the keyword. -/
theorem tryKWMatch_none_sp {kw rest : List Char}
    (h1 : HeadNonWs rest) (h2 : HeadNonWs (rest.drop kw.length)) :
    tryKWMatch kw (' ' :: rest) = none := by
  unfold tryKWMatch
  rw [List.takeWhile_cons_of_pos (by decide), takeWhile_ws_eq_nil_of_head h1,
    List.dropWhile_cons_of_pos (by decide), dropWhile_ws_eq_self_of_head h1]
  by_cases hci : ciHasPre kw rest
  · rw [if_neg (by simp), if_pos hci, takeWhile_ws_eq_nil_of_head h2]
    simp
  · rw [if_neg (by simp), if_neg hci]

theorem tryKWMatch_and_match {R : List Char} (hR : HeadNonWs R) :
    tryKWMatch (['a', 'n', 'd']) (' ' :: 'a' :: 'n' :: 'd' :: ' ' :: R) = some R := by
  unfold tryKWMatch
  rw [List.takeWhile_cons_of_pos (by decide), List.takeWhile_cons_of_neg (by decide),
    List.dropWhile_cons_of_pos (by decide), List.dropWhile_cons_of_neg (by decide)]
  have hci : ciHasPre (['a', 'n', 'd']) ('a' :: 'n' :: 'd' :: ' ' :: R) = true := rfl
  rw [if_neg (by simp), if_pos hci]
  show (if ((' ' :: R).takeWhile isWsChar).isEmpty then none
        else some ((' ' :: R).dropWhile isWsChar)) = some R
  rw [List.takeWhile_cons_of_pos (by decide), takeWhile_ws_eq_nil_of_head hR,
    List.dropWhile_cons_of_pos (by decide), dropWhile_ws_eq_self_of_head hR]
  simp

theorem tryKWMatch_or_match {R : List Char} (hR : HeadNonWs R) :
    tryKWMatch (['o', 'r']) (' ' :: 'o' :: 'r' :: ' ' :: R) = some R := by
  unfold tryKWMatch
  rw [List.takeWhile_cons_of_pos (by decide), List.takeWhile_cons_of_neg (by decide),
    List.dropWhile_cons_of_pos (by decide), List.dropWhile_cons_of_neg (by decide)]
  have hci : ciHasPre (['o', 'r']) ('o' :: 'r' :: ' ' :: R) = true := rfl
  rw [if_neg (by simp), if_pos hci]
  show (if ((' ' :: R).takeWhile isWsChar).isEmpty then none
        else some ((' ' :: R).dropWhile isWsChar)) = some R
  rw [List.takeWhile_cons_of_pos (by decide), takeWhile_ws_eq_nil_of_head hR,
    List.dropWhile_cons_of_pos (by decide), dropWhile_ws_eq_self_of_head hR]
  simp

/-- The split scan walks through a whitespace-free block without matching. -/
theorem splitKWAux_skip {kw A : List Char} (hA : ∀ c ∈ A, isWsChar c = false) :
    ∀ B acc, splitKWAux kw acc (A ++ B) = splitKWAux kw (A.reverse ++ acc) B := by
  induction A with
  | nil => intro B acc; simp
  | cons x A' ih =>
    intro B acc
    rw [List.cons_append,
      splitKWAux_cons_none acc (tryKWMatch_none_of_head (hA x (by simp))),
      ih (fun c hc => hA c (by simp [hc])) B (x :: acc)]
    simp

theorem headNonWs_codeShape {Z : List Char} (hZ : codeShape Z = true) : HeadNonWs Z := by
  obtain ⟨y, tl, rfl, hy⟩ := codeShape_cons hZ
  exact headNonWs_cons (upper_not_ws hy)

theorem headNotDigit_codeShape_append {Y : List Char} (B : List Char)
    (hY : codeShape Y = true) :
    ∀ d tl, Y ++ B = d :: tl → isDigitChar d = false := by
  obtain ⟨y, ytl, rfl, hy⟩ := codeShape_cons hY
  intro d tl h
  rw [List.cons_append] at h
  obtain ⟨h1, -⟩ := List.cons.inj h
  exact h1 ▸ upper_not_digit hy

/-- The full C1 input `X and Y or Z` has no whitespace-then-digit pair, so the
spaced-course substitution leaves it unchanged. -/
theorem noWsDig_c1 {X Y Z : List Char} (hX : codeShape X = true)
    (hY : codeShape Y = true) (hZ : codeShape Z = true) :
    NoWsDig (X ++ ' ' :: 'a' :: 'n' :: 'd' :: ' ' :: (Y ++ ' ' :: 'o' :: 'r' :: ' ' :: Z)) := by
  have n0 : NoWsDig Z := noWsDig_of_all_nonws (codeShape_all_nonws hZ)
  have n1 : NoWsDig (' ' :: Z) := by
    refine noWsDig_cons n0 (Or.inr ?_)
    have := headNotDigit_codeShape_append [] hZ
    simpa using this
  have n2 : NoWsDig ('r' :: ' ' :: Z) := noWsDig_cons n1 (Or.inl (by decide))
  have n3 : NoWsDig ('o' :: 'r' :: ' ' :: Z) := noWsDig_cons n2 (Or.inl (by decide))
  have n4 : NoWsDig (' ' :: 'o' :: 'r' :: ' ' :: Z) := by
    refine noWsDig_cons n3 (Or.inr ?_)
    intro d tl h
    obtain ⟨h1, -⟩ := List.cons.inj h
    rw [← h1]; decide
  have n5 : NoWsDig (Y ++ ' ' :: 'o' :: 'r' :: ' ' :: Z) :=
    noWsDig_append (codeShape_all_nonws hY) n4
  have n6 : NoWsDig (' ' :: (Y ++ ' ' :: 'o' :: 'r' :: ' ' :: Z)) :=
    noWsDig_cons n5 (Or.inr (headNotDigit_codeShape_append _ hY))
  have n7 : NoWsDig ('d' :: ' ' :: (Y ++ ' ' :: 'o' :: 'r' :: ' ' :: Z)) :=
    noWsDig_cons n6 (Or.inl (by decide))
  have n8 : NoWsDig ('n' :: 'd' :: ' ' :: (Y ++ ' ' :: 'o' :: 'r' :: ' ' :: Z)) :=
    noWsDig_cons n7 (Or.inl (by decide))
  have n9 : NoWsDig ('a' :: 'n' :: 'd' :: ' ' :: (Y ++ ' ' :: 'o' :: 'r' :: ' ' :: Z)) :=
    noWsDig_cons n8 (Or.inl (by decide))
  have n10 : NoWsDig (' ' :: 'a' :: 'n' :: 'd' :: ' ' :: (Y ++ ' ' :: 'o' :: 'r' :: ' ' :: Z)) := by
    refine noWsDig_cons n9 (Or.inr ?_)
    intro d tl h
    obtain ⟨h1, -⟩ := List.cons.inj h
    rw [← h1]; decide
  exact noWsDig_append (codeShape_all_nonws hX) n10

/-- A whitespace-free list is a single split field. -/
theorem splitKW_nonws {kw l : List Char} (h : ∀ c ∈ l, isWsChar c = false) :
    splitKW kw l = [l] := by
  show splitKWAux kw [] l = [l]
  conv_lhs => rw [← List.append_nil l]
  rw [splitKWAux_skip h]
  simp [splitKWAux_nil]

/-- `re.split(r'\s+or\s+')` on the C1 input splits exactly at the ` or `. -/
theorem c1_split_or {X Y Z : List Char} (hX : codeShape X = true)
    (hY : codeShape Y = true) (hZ : codeShape Z = true) :
    splitKW (['o', 'r'])
        (X ++ ' ' :: 'a' :: 'n' :: 'd' :: ' ' :: (Y ++ ' ' :: 'o' :: 'r' :: ' ' :: Z)) =
      [X ++ ' ' :: 'a' :: 'n' :: 'd' :: ' ' :: Y, Z] := by
  show splitKWAux _ [] _ = _
  rw [splitKWAux_skip (codeShape_all_nonws hX)]
  have hnone1 :
      tryKWMatch (['o', 'r'])
        (' ' :: 'a' :: 'n' :: 'd' :: ' ' :: (Y ++ ' ' :: 'o' :: 'r' :: ' ' :: Z)) = none :=
    tryKWMatch_none_sp (headNonWs_cons (by decide)) (headNonWs_cons (by decide))
  rw [splitKWAux_cons_none _ hnone1]
  rw [show ('a' :: 'n' :: 'd' :: ' ' :: (Y ++ ' ' :: 'o' :: 'r' :: ' ' :: Z)) =
      (['a', 'n', 'd'] : List Char) ++ (' ' :: (Y ++ ' ' :: 'o' :: 'r' :: ' ' :: Z)) from rfl]
  rw [splitKWAux_skip (by decide)]
  have hnone2 : tryKWMatch (['o', 'r']) (' ' :: (Y ++ ' ' :: 'o' :: 'r' :: ' ' :: Z)) = none :=
    tryKWMatch_none_sp (headNonWs_codeShape_append hY) (headNonWs_codeShape_append_drop2 hY)
  rw [splitKWAux_cons_none _ hnone2]
  rw [splitKWAux_skip (codeShape_all_nonws hY)]
  rw [splitKWAux_cons_some _ (tryKWMatch_or_match (headNonWs_codeShape hZ))]
  rw [show splitKWAux (['o', 'r']) [] Z = splitKW (['o', 'r']) Z from rfl,
    splitKW_nonws (codeShape_all_nonws hZ)]
  simp [List.reverse_append, List.append_assoc]

/-- `re.split(r'\s+and\s+')` on the first OR-group splits exactly at the ` and `. -/
theorem c1_split_and {X Y : List Char} (hX : codeShape X = true)
    (hY : codeShape Y = true) :
    splitKW (['a', 'n', 'd']) (X ++ ' ' :: 'a' :: 'n' :: 'd' :: ' ' :: Y) = [X, Y] := by
  show splitKWAux _ [] _ = _
  rw [splitKWAux_skip (codeShape_all_nonws hX)]
  rw [splitKWAux_cons_some _ (tryKWMatch_and_match (headNonWs_codeShape hY))]
  rw [show splitKWAux (['a', 'n', 'd']) [] Y = splitKW (['a', 'n', 'd']) Y from rfl,
    splitKW_nonws (codeShape_all_nonws hY)]
  simp

/-- The course-code search pattern matches a code-shaped token entirely, at the
start of the token. -/
theorem tryCodeMatch_codeShape {X : List Char} (h : codeShape X = true) :
    tryCodeMatch X = some X := by
  obtain ⟨u, d, hne, hu, hlen, hd, hX | hX⟩ := codeShape_elim h <;>
    obtain ⟨d1, d2, d3, d4, rfl⟩ : ∃ d1 d2 d3 d4, d = [d1, d2, d3, d4] := by
      rcases d with _ | ⟨d1, _ | ⟨d2, _ | ⟨d3, _ | ⟨d4, _ | ⟨d5, tl⟩⟩⟩⟩⟩ <;>
        first
          | exact ⟨d1, d2, d3, d4, rfl⟩
          | (exfalso; simp at hlen)
  · subst hX
    have hd1 : isDigitChar d1 = true := hd d1 (by simp)
    have hspan := span_append ([d2, d3, d4] : List Char) hu (digit_not_upper hd1)
    have hfd : first4Digits (d1 :: [d2, d3, d4]) = some [d1, d2, d3, d4] := by
      simp only [first4Digits]
      rw [if_pos (by simp [hd1, hd d2 (by simp), hd d3 (by simp), hd d4 (by simp)])]
    unfold tryCodeMatch
    rw [show u ++ ([d1, d2, d3, d4] : List Char) = u ++ d1 :: [d2, d3, d4] from rfl,
      hspan.1, hspan.2, if_neg (by simp [hne])]
    show (if (d1 == '-' || isWsChar d1) = true then
            match first4Digits ([d2, d3, d4] : List Char) with
            | some ds => some (u ++ d1 :: ds)
            | none => none
          else
            match first4Digits (d1 :: [d2, d3, d4]) with
            | some ds => some (u ++ ds)
            | none => none) = some (u ++ d1 :: [d2, d3, d4])
    rw [if_neg (by simp [digit_ne_hyphen hd1, digit_not_ws hd1]), hfd]
  · subst hX
    have hspan := span_append ([d1, d2, d3, d4] : List Char) hu
      (show isUpperAZ '-' = false from by decide)
    have hfd : first4Digits ([d1, d2, d3, d4] : List Char) = some [d1, d2, d3, d4] := by
      simp only [first4Digits]
      rw [if_pos (by simp [hd d1 (by simp), hd d2 (by simp), hd d3 (by simp), hd d4 (by simp)])]
    unfold tryCodeMatch
    rw [hspan.1, hspan.2, if_neg (by simp [hne])]
    show (if (('-' : Char) == '-' || isWsChar '-') = true then
            match first4Digits ([d1, d2, d3, d4] : List Char) with
            | some ds => some (u ++ '-' :: ds)
            | none => none
          else
            match first4Digits ('-' :: [d1, d2, d3, d4]) with
            | some ds => some (u ++ ds)
            | none => none) = some (u ++ '-' :: [d1, d2, d3, d4])
    rw [if_pos (by decide), hfd]

theorem searchCode_codeShape {X : List Char} (h : codeShape X = true) :
    searchCode X = some X := by
  obtain ⟨y, tl, hXc, -⟩ := codeShape_cons h
  rw [hXc]
  show (match tryCodeMatch (y :: tl) with
        | some tok => some tok
        | none => searchCode tl) = some (y :: tl)
  rw [← hXc, tryCodeMatch_codeShape h, hXc]

/-- C1: for every well-formed prerequisite string of the form `X and Y or Z`
with `X`, `Y`, `Z` course-code-shaped (`[A-Z]+-?\d{4}`), `parse_prerequisites`
returns `[[X, Y], [Z]]`: the string is split on the whitespace-delimited,
case-insensitive `or` strictly before being split on `and`, so `A or B and C`
is always read as `(A) OR (B AND C)` and never as `(A OR B) AND C`. -/
theorem c1_or_binds_looser_than_and {X Y Z : List Char}
    (hX : codeShape X = true) (hY : codeShape Y = true) (hZ : codeShape Z = true) :
    parse_prerequisites
        (X ++ ' ' :: 'a' :: 'n' :: 'd' :: ' ' :: (Y ++ ' ' :: 'o' :: 'r' :: ' ' :: Z)) =
      [[X, Y], [Z]] := by
  obtain ⟨x0, xtl, hXc, -⟩ := codeShape_cons hX
  have hne : (X ++ ' ' :: 'a' :: 'n' :: 'd' :: ' ' ::
      (Y ++ ' ' :: 'o' :: 'r' :: ' ' :: Z)).isEmpty = false := by
    rw [hXc]; rfl
  unfold parse_prerequisites
  rw [hne]
  simp only [Bool.false_eq_true, if_false]
  rw [subSpaced_eq_self (noWsDig_c1 hX hY hZ), c1_split_or hX hY hZ]
  simp only [List.map_cons, List.map_nil]
  rw [c1_split_and hX hY, splitKW_nonws (codeShape_all_nonws hZ)]
  simp only [List.filterMap_cons, searchCode_codeShape hX, searchCode_codeShape hY,
    searchCode_codeShape hZ, List.filterMap_nil]
  simp [List.filter]

/-- Witness for C1 at `"CS-0441 and CS0445 or COE-0445"`. -/
theorem c1_or_binds_looser_than_and_witness :
    codeShape (("CS-0441").data) = true ∧ codeShape (("CS0445").data) = true ∧
      codeShape (("COE-0445").data) = true ∧
      parse_prerequisites (("CS-0441 and CS0445 or COE-0445").data) =
        [[("CS-0441").data, ("CS0445").data], [("COE-0445").data]] := by
  refine ⟨by decide, by decide, by decide, ?_⟩
  have h := c1_or_binds_looser_than_and (X := ("CS-0441").data) (Y := ("CS0445").data)
    (Z := ("COE-0445").data) (by decide) (by decide) (by decide)
  exact (by decide :
      (("CS-0441 and CS0445 or COE-0445").data =
        ("CS-0441").data ++ ' ' :: 'a' :: 'n' :: 'd' :: ' ' ::
          (("CS0445").data ++ ' ' :: 'o' :: 'r' :: ' ' :: ("COE-0445").data))) ▸ h

theorem ws_not_upper {c : Char} (h : isWsChar c = true) : isUpperAZ c = false := by
  rcases hu : isUpperAZ c with _ | _
  · rfl
  · exact absurd h (by simp [upper_not_ws hu])

theorem ws_not_word {c : Char} (h : isWsChar c = true) : isWordChar c = false := by
  rcases hw : isWordChar c with _ | _
  · rfl
  · exact absurd h (by simp [word_not_ws hw])

theorem wsCodeAt_elim {s : List Char} (h : wsCodeAt s = true) :
    ∃ c tl ds, s = s.takeWhile isUpperAZ ++ c :: tl ∧ s.takeWhile isUpperAZ ≠ [] ∧
      isWsChar c = true ∧ first4Digits tl = some ds := by
  simp only [wsCodeAt, Bool.and_eq_true, Bool.not_eq_eq_eq_not, Bool.not_true] at h
  obtain ⟨⟨hne, hws⟩, h4⟩ := h
  cases hr : s.dropWhile isUpperAZ with
  | nil => rw [hr] at hws; exact absurd hws (by simp [headIsWs])
  | cons c tl =>
    rw [hr] at hws h4
    simp only [headIsWs] at hws
    simp only [List.tail_cons] at h4
    obtain ⟨ds, hds⟩ := Option.isSome_iff_exists.mp h4
    refine ⟨c, tl, ds, ?_, ?_, hws, hds⟩
    · conv_lhs => rw [← List.takeWhile_append_dropWhile isUpperAZ s]
      rw [hr]
    · intro hnil; rw [hnil] at hne; exact absurd hne (by simp)

theorem first4Digits_append {tl e ds : List Char} (h : first4Digits tl = some ds) :
    first4Digits (tl ++ e) = some ds := by
  obtain ⟨d1, d2, d3, d4, tl2, rfl, rfl, h1, h2, h3, h4⟩ := first4Digits_eq_some h
  simp only [List.cons_append, first4Digits]
  rw [if_pos (by simp [h1, h2, h3, h4])]

theorem wsCodeAt_append {t e : List Char} (h : wsCodeAt t = true) :
    wsCodeAt (t ++ e) = true := by
  obtain ⟨c, tl, ds, ht, hne, hws, h4⟩ := wsCodeAt_elim h
  have hu : ∀ x ∈ t.takeWhile isUpperAZ, isUpperAZ x = true :=
    fun x hx => List.mem_takeWhile_imp hx
  have hspan := span_append (tl ++ e) hu (ws_not_upper hws)
  have hte : t ++ e = t.takeWhile isUpperAZ ++ c :: (tl ++ e) := by
    conv_lhs => rw [ht]
    simp
  rw [hte]
  simp only [wsCodeAt, hspan.1, hspan.2, headIsWs, List.tail_cons,
    first4Digits_append h4, hws]
  simp [hne]

theorem wsCodeAt_nil : wsCodeAt [] = false := rfl

theorem wsCodeAt_false_of_head_not_upper {c : Char} {l : List Char}
    (h : isUpperAZ c = false) : wsCodeAt (c :: l) = false := by
  unfold wsCodeAt
  rw [List.takeWhile_cons_of_neg (by simp [h])]
  rfl

theorem dropWhile_head_cases {p : Char → Bool} {c : Char} (a b : List Char)
    (hc : p c = false) :
    ∃ h tl, (a ++ c :: b).dropWhile p = h :: tl ∧ (h ∈ a ∨ h = c) ∧ p h = false := by
  induction a with
  | nil =>
    exact ⟨c, b, List.dropWhile_cons_of_neg (by simp [hc]), Or.inr rfl, hc⟩
  | cons x a' ih =>
    rcases hx : p x with _ | _
    · exact ⟨x, a' ++ c :: b, List.dropWhile_cons_of_neg (by simp [hx]),
        Or.inl (by simp), hx⟩
    · obtain ⟨h, tl, hdrop, hmem, hp⟩ := ih
      refine ⟨h, tl, ?_, ?_, hp⟩
      · rw [List.cons_append, List.dropWhile_cons_of_pos hx, hdrop]
      · rcases hmem with hm | hm
        · exact Or.inl (by simp [hm])
        · exact Or.inr hm

/-- A suffix of `a ++ b` is a suffix of `b`, or a nonempty suffix of `a`
followed by all of `b`. -/
theorem suffix_append_cases {t a b : List Char} (h : t <:+ a ++ b) :
    t <:+ b ∨ ∃ a', a' <:+ a ∧ a' ≠ [] ∧ t = a' ++ b := by
  induction a with
  | nil => exact Or.inl (by simpa using h)
  | cons x a2 ih =>
    rw [List.cons_append] at h
    rcases List.suffix_cons_iff.mp h with rfl | h'
    · exact Or.inr ⟨x :: a2, List.suffix_refl _, by simp, by simp⟩
    · rcases ih h' with hl | ⟨a', ha', hne, rfl⟩
      · exact Or.inl hl
      · exact Or.inr ⟨a', ha'.trans (List.suffix_cons x a2), hne, rfl⟩

/-- If the substituted text starts with a whitespace character, that character
was copied from the input, and the rest is the substitution of the input tail. -/
theorem subSpaced_ws_head {z : List Char} {c : Char} {l : List Char}
    (h : subSpaced z = c :: l) (hc : isWsChar c = true) :
    ∃ z', z = c :: z' ∧ l = subSpaced z' := by
  cases z with
  | nil => exact absurd h (by simp [subSpaced_nil])
  | cons a as =>
    cases hm : trySubMatch (a :: as) with
    | some p =>
      exfalso
      obtain ⟨rep, rest⟩ := p
      rw [subSpaced_cons_some hm] at h
      obtain ⟨w, sp, ds, _, hrep, hwne, hword, -⟩ := trySubMatch_decomp hm
      obtain ⟨w0, w', rfl⟩ : ∃ w0 w', w = w0 :: w' := by
        cases w with
        | nil => exact absurd rfl hwne
        | cons w0 w' => exact ⟨w0, w', rfl⟩
      rw [hrep] at h
      simp only [List.cons_append, List.cons.injEq] at h
      exact absurd hc (by simp [h.1 ▸ word_not_ws (hword w0 (by simp))])
    | none =>
      rw [subSpaced_cons_none hm] at h
      obtain ⟨rfl, rfl⟩ := List.cons.inj h
      exact ⟨as, rfl, rfl⟩

/-- Digits at the front of the substituted text come from the same digits at
the front of the input: a replacement block starts with the matched `\w+` run
followed by a hyphen, so a digit prefix of the output of length at most the
run is a prefix of the input, and a longer one would have to contain the
hyphen. -/
theorem subSpaced_digit_pre :
    ∀ n z, z.length ≤ n → ∀ ds : List Char, (∀ c ∈ ds, isDigitChar c = true) →
      ds <+: subSpaced z → ds <+: z := by
  intro n
  induction n with
  | zero =>
    intro z hz ds _ hpre
    have : z = [] := List.eq_nil_of_length_eq_zero (Nat.le_zero.mp hz)
    subst this
    simpa [subSpaced_nil] using hpre
  | succ n ih =>
    intro z hz ds hdig hpre
    cases z with
    | nil => simpa [subSpaced_nil] using hpre
    | cons c cs =>
      cases hm : trySubMatch (c :: cs) with
      | some p =>
        obtain ⟨rep, rest⟩ := p
        rw [subSpaced_cons_some hm] at hpre
        obtain ⟨w, sp, ds4, hzdec, hrep, hwne, -, -, -, -, -⟩ := trySubMatch_decomp hm
        have hwpre : w <+: rep ++ subSpaced rest := by
          rw [hrep]
          exact ⟨'-' :: ds4 ++ subSpaced rest, by simp⟩
        rcases List.prefix_or_prefix_of_prefix hpre hwpre with hdw | hwd
        · have hwz : w <+: c :: cs := by
            rw [hzdec]
            exact ⟨sp ++ ds4 ++ rest, by simp [List.append_assoc]⟩
          exact hdw.trans hwz
        · obtain ⟨e, rfl⟩ := hwd
          cases e with
          | nil =>
            rw [List.append_nil]
            rw [hzdec]
            exact ⟨sp ++ ds4 ++ rest, by simp [List.append_assoc]⟩
          | cons e0 e' =>
            exfalso
            obtain ⟨t, ht⟩ := hpre
            rw [hrep] at ht
            rw [List.append_assoc, List.append_assoc] at ht
            have := List.append_cancel_left ht
            simp only [List.cons_append, List.cons.injEq] at this
            have he0 : e0 = '-' := this.1
            have : isDigitChar e0 = true := hdig e0 (by simp)
            rw [he0] at this
            exact absurd this (by decide)
      | none =>
        rw [subSpaced_cons_none hm] at hpre
        cases ds with
        | nil => exact List.nil_prefix
        | cons d0 ds' =>
          obtain ⟨hd0, hds'⟩ := List.cons_prefix_cons.mp hpre
          subst hd0
          simp only [List.length_cons] at hz
          exact List.cons_prefix_cons.mpr
            ⟨rfl, ih cs (by omega) ds' (fun x hx => hdig x (by simp [hx])) hds'⟩

theorem wsCodeAt_head_ws {t : List Char} (h : wsCodeAt t = true) :
    headIsWs (t.dropWhile isUpperAZ) = true := by
  simp only [wsCodeAt, Bool.and_eq_true] at h
  exact h.1.2

/-- Central invariant for C9: no suffix of a substituted string carries the
whitespace-separated course-code pattern.  If one did, the uppercase run, the
single whitespace character and the four digits would map back (via
`subSpaced_ws_head` and `subSpaced_digit_pre`) to a `(\w+)\s+(\d{4})` match in
the input at a position the scan visited and rejected — a contradiction. -/
theorem wsCodeAt_subSpaced_false :
    ∀ n s, s.length ≤ n → ∀ t, t <:+ subSpaced s → wsCodeAt t = false := by
  intro n
  induction n with
  | zero =>
    intro s hs t ht
    have : s = [] := List.eq_nil_of_length_eq_zero (Nat.le_zero.mp hs)
    subst this
    rw [subSpaced_nil] at ht
    rw [List.suffix_nil.mp ht]
    rfl
  | succ n ih =>
    intro s hs t ht
    cases s with
    | nil =>
      rw [subSpaced_nil] at ht
      rw [List.suffix_nil.mp ht]
      rfl
    | cons c cs =>
      simp only [List.length_cons] at hs
      cases hm : trySubMatch (c :: cs) with
      | some p =>
        obtain ⟨rep, rest⟩ := p
        rw [subSpaced_cons_some hm] at ht
        have hrlen := trySubMatch_some_length hm
        simp only [List.length_cons] at hrlen
        rcases suffix_append_cases ht with ht' | ⟨a', ha', hane, rfl⟩
        · exact ih rest (by omega) t ht'
        · obtain ⟨w, sp, ds4, -, hrep, -, hword, -, -, -, hdig⟩ := trySubMatch_decomp hm
          rw [hrep] at ha'
          rcases suffix_append_cases ha' with ha2 | ⟨w', hw', hwne', rfl⟩
          · rcases List.suffix_cons_iff.mp ha2 with rfl | ha3
            · rw [List.cons_append]
              exact wsCodeAt_false_of_head_not_upper (by decide)
            · obtain ⟨pre, hpre⟩ := ha3
              cases a' with
              | nil => exact absurd rfl hane
              | cons h0 a2 =>
                have hmem : h0 ∈ ds4 := by
                  rw [← hpre]
                  simp
                rw [List.cons_append]
                exact wsCodeAt_false_of_head_not_upper (digit_not_upper (hdig h0 hmem))
          · rcases hw2 : wsCodeAt (w' ++ '-' :: ds4 ++ subSpaced rest) with _ | _
            · rfl
            · exfalso
              have hw'w : ∀ x ∈ w', isWordChar x = true := by
                intro x hx
                obtain ⟨pre, hpre⟩ := hw'
                exact hword x (by rw [← hpre]; simp [hx])
              have hws := wsCodeAt_head_ws hw2
              obtain ⟨h1, tl1, hdrop, hmem, -⟩ :=
                dropWhile_head_cases w' (ds4 ++ subSpaced rest)
                  (show isUpperAZ '-' = false from by decide) (p := isUpperAZ)
              rw [show (w' ++ '-' :: ds4 ++ subSpaced rest : List Char) =
                  w' ++ '-' :: (ds4 ++ subSpaced rest) from by
                simp [List.append_assoc]] at hws
              rw [hdrop] at hws
              simp only [headIsWs] at hws
              rcases hmem with hm1 | rfl
              · exact absurd hws (by simp [word_not_ws (hw'w h1 hm1)])
              · exact absurd hws (by decide)
      | none =>
        rw [subSpaced_cons_none hm] at ht
        rcases List.suffix_cons_iff.mp ht with rfl | ht'
        · rcases hw : wsCodeAt (c :: subSpaced cs) with _ | _
          · rfl
          · exfalso
            rcases hcu : isUpperAZ c with _ | _
            · rw [wsCodeAt_false_of_head_not_upper hcu] at hw
              exact Bool.false_ne_true hw
            · have hIH : wsCodeAt (subSpaced cs) = false :=
                ih cs (by omega) (subSpaced cs) (List.suffix_refl _)
              unfold wsCodeAt at hw
              rw [List.takeWhile_cons_of_pos hcu, List.dropWhile_cons_of_pos hcu] at hw
              simp only [Bool.and_eq_true] at hw
              obtain ⟨⟨-, hh⟩, h4⟩ := hw
              have htw : (subSpaced cs).takeWhile isUpperAZ = [] := by
                rcases hne2 : ((subSpaced cs).takeWhile isUpperAZ).isEmpty with _ | _
                · exfalso
                  have : wsCodeAt (subSpaced cs) = true := by
                    unfold wsCodeAt
                    rw [hne2, hh, h4]
                    rfl
                  rw [this] at hIH
                  exact Bool.noConfusion hIH
                · exact List.isEmpty_iff.mp hne2
              have hdropS : (subSpaced cs).dropWhile isUpperAZ = subSpaced cs := by
                have := List.takeWhile_append_dropWhile isUpperAZ (subSpaced cs)
                rw [htw] at this
                simpa using this
              rw [hdropS] at hh h4
              cases hS : subSpaced cs with
              | nil => rw [hS] at hh; exact absurd hh (by simp [headIsWs])
              | cons w S2 =>
                rw [hS] at hh h4
                simp only [headIsWs] at hh
                simp only [List.tail_cons] at h4
                obtain ⟨z', hcs, hS2⟩ := subSpaced_ws_head hS hh
                obtain ⟨ds, hds⟩ := Option.isSome_iff_exists.mp h4
                obtain ⟨d1, d2, d3, d4, tl2, hS2eq, rfl, hd1, hd2, hd3, hd4⟩ :=
                  first4Digits_eq_some hds
                have hpre : [d1, d2, d3, d4] <+: subSpaced z' := by
                  rw [← hS2, hS2eq]
                  exact ⟨tl2, rfl⟩
                have hlen : z'.length ≤ n := by
                  rw [hcs] at hs
                  simp only [List.length_cons] at hs
                  omega
                have hd1z : [d1, d2, d3, d4] <+: z' :=
                  subSpaced_digit_pre n z' hlen [d1, d2, d3, d4]
                    (by
                      intro x hx
                      simp only [List.mem_cons, List.not_mem_nil, or_false] at hx
                      rcases hx with rfl | rfl | rfl | rfl <;> assumption)
                    hpre
                obtain ⟨e, he⟩ := hd1z
                have hcs2 : cs = w :: d1 :: d2 :: d3 :: d4 :: e := by
                  rw [hcs, ← he]
                  rfl
                have : trySubMatch (c :: cs) =
                    some (c :: '-' :: [d1, d2, d3, d4], e) := by
                  rw [hcs2]
                  unfold trySubMatch
                  rw [List.takeWhile_cons_of_pos (upper_word hcu),
                    List.takeWhile_cons_of_neg (by simp [ws_not_word hh]),
                    List.dropWhile_cons_of_pos (upper_word hcu),
                    List.dropWhile_cons_of_neg (by simp [ws_not_word hh]),
                    List.takeWhile_cons_of_pos hh,
                    List.takeWhile_cons_of_neg (by simp [digit_not_ws hd1]),
                    List.dropWhile_cons_of_pos hh,
                    List.dropWhile_cons_of_neg (by simp [digit_not_ws hd1])]
                  rw [show first4Digits (d1 :: d2 :: d3 :: d4 :: e) =
                      some [d1, d2, d3, d4] from by
                    simp only [first4Digits]
                    rw [if_pos (by simp [hd1, hd2, hd3, hd4])]]
                  rw [if_neg (by simp), if_neg (by simp)]
                  rfl
                rw [hm] at this
                exact Option.noConfusion this
        · exact ih cs (by omega) t ht'

/-- Every suffix of the substituted string is free of the whitespace-separated
code pattern. -/
theorem wsCodeAt_subSpaced_suffix {s t : List Char} (h : t <:+ subSpaced s) :
    wsCodeAt t = false :=
  wsCodeAt_subSpaced_false s.length s (le_refl _) t h

theorem tryKWMatch_eq_some {kw s r : List Char} (h : tryKWMatch kw s = some r) :
    r = ((s.dropWhile isWsChar).drop kw.length).dropWhile isWsChar := by
  unfold tryKWMatch at h
  by_cases h1 : (s.takeWhile isWsChar).isEmpty
  · rw [if_pos h1] at h; exact absurd h (by simp)
  · rw [if_neg h1] at h
    by_cases h2 : ciHasPre kw (s.dropWhile isWsChar)
    · rw [if_pos h2] at h
      by_cases h3 : (((s.dropWhile isWsChar).drop kw.length).takeWhile isWsChar).isEmpty
      · rw [if_pos h3] at h; exact absurd h (by simp)
      · rw [if_neg h3] at h
        exact (Option.some.inj h).symm
    · rw [if_neg h2] at h; exact absurd h (by simp)

theorem tryKWMatch_some_sfx {kw s r : List Char} (h : tryKWMatch kw s = some r) :
    r <:+ s := by
  rw [tryKWMatch_eq_some h]
  exact (List.dropWhile_suffix _).trans ((List.drop_suffix _ _).trans (List.dropWhile_suffix _))

/-- Every field produced by the split scan is an infix of the scanned text. -/
theorem splitKWAux_mem_infix :
    ∀ n s, s.length ≤ n → ∀ kw acc p, p ∈ splitKWAux kw acc s → p <:+: (acc.reverse ++ s) := by
  intro n
  induction n with
  | zero =>
    intro s hs kw acc p hp
    have : s = [] := List.eq_nil_of_length_eq_zero (Nat.le_zero.mp hs)
    subst this
    rw [splitKWAux_nil] at hp
    simp only [List.mem_singleton] at hp
    subst hp
    exact (List.prefix_append _ _).isInfix
  | succ n ih =>
    intro s hs kw acc p hp
    cases s with
    | nil =>
      rw [splitKWAux_nil] at hp
      simp only [List.mem_singleton] at hp
      subst hp
      exact (List.prefix_append _ _).isInfix
    | cons c cs =>
      simp only [List.length_cons] at hs
      cases hm : tryKWMatch kw (c :: cs) with
      | some rest =>
        rw [splitKWAux_cons_some acc hm] at hp
        rcases List.mem_cons.mp hp with rfl | hp'
        · exact (List.prefix_append _ _).isInfix
        · have hlen := tryKWMatch_some_length hm
          simp only [List.length_cons] at hlen
          have hrec := ih rest (by omega) kw [] p hp'
          simp only [List.reverse_nil, List.nil_append] at hrec
          exact hrec.trans ((tryKWMatch_some_sfx hm).isInfix.trans
            (List.suffix_append acc.reverse (c :: cs)).isInfix)
      | none =>
        rw [splitKWAux_cons_none acc hm] at hp
        have hrec := ih cs (by omega) kw (c :: acc) p hp
        rw [show ((c :: acc).reverse ++ cs : List Char) = acc.reverse ++ c :: cs from by
          simp] at hrec
        exact hrec

theorem splitKW_mem_infix {kw s p : List Char} (hp : p ∈ splitKW kw s) : p <:+: s := by
  have := splitKWAux_mem_infix s.length s (le_refl _) kw [] p hp
  simpa using this

theorem searchCode_eq_some {m tok : List Char} (h : searchCode m = some tok) :
    ∃ t, t <:+ m ∧ tryCodeMatch t = some tok := by
  induction m with
  | nil => exact absurd h (by simp [searchCode])
  | cons c cs ih =>
    cases hm : tryCodeMatch (c :: cs) with
    | some tk =>
      have hval : searchCode (c :: cs) = some tk := by
        simp only [searchCode]
        rw [hm]
      rw [hval] at h
      exact ⟨c :: cs, List.suffix_refl _, hm.trans h⟩
    | none =>
      have hval : searchCode (c :: cs) = searchCode cs := by
        simp only [searchCode]
        rw [hm]
      rw [hval] at h
      obtain ⟨t, hts, htc⟩ := ih h
      exact ⟨t, hts.trans (List.suffix_cons c cs), htc⟩

theorem codeShape_intro_plain {u d : List Char} (hne : u ≠ [])
    (hu : ∀ c ∈ u, isUpperAZ c = true) (hlen : d.length = 4)
    (hd : ∀ c ∈ d, isDigitChar c = true) : codeShape (u ++ d) = true := by
  obtain ⟨d1, d2, d3, d4, rfl⟩ : ∃ d1 d2 d3 d4, d = [d1, d2, d3, d4] := by
    rcases d with _ | ⟨d1, _ | ⟨d2, _ | ⟨d3, _ | ⟨d4, _ | ⟨d5, tl⟩⟩⟩⟩⟩ <;>
      first
        | exact ⟨d1, d2, d3, d4, rfl⟩
        | (exfalso; simp at hlen)
  have hspan := span_append ([d2, d3, d4] : List Char) hu (digit_not_upper (hd d1 (by simp)))
  unfold codeShape
  rw [show u ++ ([d1, d2, d3, d4] : List Char) = u ++ d1 :: [d2, d3, d4] from rfl,
    hspan.1, hspan.2]
  have hall : ∀ x ∈ (d1 :: [d2, d3, d4] : List Char), isDigitChar x = true := by
    intro x hx
    exact hd x (by simpa using hx)
  have h4 : fourDigitsExact (d1 :: [d2, d3, d4]) = true := by
    simp [fourDigitsExact, List.all_eq_true, hall]
  rw [h4]
  simp [hne]

theorem codeShape_intro_hyphen {u d : List Char} (hne : u ≠ [])
    (hu : ∀ c ∈ u, isUpperAZ c = true) (hlen : d.length = 4)
    (hd : ∀ c ∈ d, isDigitChar c = true) : codeShape (u ++ '-' :: d) = true := by
  have hspan := span_append d hu (show isUpperAZ '-' = false from by decide)
  unfold codeShape
  rw [hspan.1, hspan.2]
  have h4 : fourDigitsExact d = true := by
    simp only [fourDigitsExact, List.all_eq_true, hlen, Bool.and_eq_true, beq_iff_eq]
    exact ⟨trivial, hd⟩
  simp [hne, h4]

/-- A successful `tryCodeMatch` yields a hyphen-or-plain shaped token, unless
the position carries the whitespace-separated pattern. -/
theorem tryCodeMatch_shape {t tok : List Char} (h : tryCodeMatch t = some tok) :
    codeShape tok = true ∨ wsCodeAt t = true := by
  unfold tryCodeMatch at h
  by_cases hne : (t.takeWhile isUpperAZ).isEmpty
  · rw [if_pos hne] at h; exact absurd h (by simp)
  · rw [if_neg hne] at h
    have hnil : t.takeWhile isUpperAZ ≠ [] := by
      intro hn; rw [hn] at hne; exact hne rfl
    have hu : ∀ c ∈ t.takeWhile isUpperAZ, isUpperAZ c = true :=
      fun c hc => List.mem_takeWhile_imp hc
    cases hr : t.dropWhile isUpperAZ with
    | nil => rw [hr] at h; exact absurd h (by simp)
    | cons c tl =>
      rw [hr] at h
      have h2 : (if (c == '-' || isWsChar c) = true then
            match first4Digits tl with
            | some ds => some (t.takeWhile isUpperAZ ++ c :: ds)
            | none => none
          else
            match first4Digits (c :: tl) with
            | some ds => some (t.takeWhile isUpperAZ ++ ds)
            | none => none) = some tok := h
      by_cases hsep : (c == '-' || isWsChar c) = true
      · rw [if_pos hsep] at h2
        cases hfd : first4Digits tl with
        | none => rw [hfd] at h2; exact absurd h2 (by simp)
        | some ds =>
          rw [hfd] at h2
          have htok : tok = t.takeWhile isUpperAZ ++ c :: ds := (Option.some.inj h2).symm
          obtain ⟨d1, d2, d3, d4, tl2, -, rfl, hd1, hd2, hd3, hd4⟩ :=
            first4Digits_eq_some hfd
          rcases Bool.or_eq_true _ _ ▸ hsep with hc | hc
          · have hc' : c = '-' := beq_iff_eq.mp hc
            subst hc'
            left
            rw [htok]
            refine codeShape_intro_hyphen hnil hu (by simp) ?_
            intro x hx
            simp only [List.mem_cons, List.not_mem_nil, or_false] at hx
            rcases hx with rfl | rfl | rfl | rfl <;> assumption
          · right
            unfold wsCodeAt
            rw [hr]
            simp only [headIsWs, List.tail_cons, hfd, hc]
            simp [hnil]
      · rw [if_neg hsep] at h2
        cases hfd : first4Digits (c :: tl) with
        | none => rw [hfd] at h2; exact absurd h2 (by simp)
        | some ds =>
          rw [hfd] at h2
          have htok : tok = t.takeWhile isUpperAZ ++ ds := (Option.some.inj h2).symm
          obtain ⟨d1, d2, d3, d4, tl2, -, rfl, hd1, hd2, hd3, hd4⟩ :=
            first4Digits_eq_some hfd
          left
          rw [htok]
          refine codeShape_intro_plain hnil hu (by simp) ?_
          intro x hx
          simp only [List.mem_cons, List.not_mem_nil, or_false] at hx
          rcases hx with rfl | rfl | rfl | rfl <;> assumption

/-- C9: for every input string, every token in the returned
PrerequisiteExpression matches the course-code shape `[A-Z]+-?\d{4}`, and no
OR-group in the result is empty: AND-members with no course-code-shaped
substring are dropped, and OR-groups whose members are all dropped are omitted
entirely rather than retained as empty groups. -/
theorem c9_token_invariant (s : List Char) {g : List (List Char)}
    (hg : g ∈ parse_prerequisites s) :
    g ≠ [] ∧ ∀ tok ∈ g, codeShape tok = true := by
  unfold parse_prerequisites at hg
  by_cases hse : s.isEmpty
  · rw [if_pos hse] at hg
    exact absurd hg (by simp)
  · rw [if_neg hse] at hg
    obtain ⟨hg1, hg2⟩ := List.mem_filter.mp hg
    refine ⟨?_, ?_⟩
    · intro hnil
      rw [hnil] at hg2
      exact absurd hg2 (by simp)
    · obtain ⟨gi, hgi, rfl⟩ := List.mem_map.mp hg1
      intro tok htok
      obtain ⟨m, hm, hsc⟩ := List.mem_filterMap.mp htok
      obtain ⟨t, hts, htc⟩ := searchCode_eq_some hsc
      rcases tryCodeMatch_shape htc with hshape | hwsAt
      · exact hshape
      · exfalso
        have hmgi : m <:+: gi := splitKW_mem_infix hm
        have hgiS : gi <:+: subSpaced s := splitKW_mem_infix hgi
        obtain ⟨pre, suf, heq⟩ := (hts.isInfix.trans hmgi).trans hgiS
        have hsuffix : t ++ suf <:+ subSpaced s :=
          ⟨pre, by rw [← heq]; simp [List.append_assoc]⟩
        have hfalse := wsCodeAt_subSpaced_suffix hsuffix
        rw [wsCodeAt_append hwsAt] at hfalse
        exact Bool.noConfusion hfalse

/-- Witness for C9 on a concrete input with a spaced course reference and an
unparseable second group. -/
theorem c9_token_invariant_witness :
    [("CS-0441").data] ∈ parse_prerequisites (("CS 0441 or junk").data) ∧
      [("CS-0441").data] ≠ [] ∧
      ∀ tok ∈ [("CS-0441").data], codeShape tok = true :=
  ⟨by decide, c9_token_invariant (("CS 0441 or junk").data) (by decide)⟩

theorem tryEach_eq_some {α β : Type} {l : List α} {f : α → Option β} {b : β}
    (h : tryEach l f = some b) : ∃ a ∈ l, f a = some b := by
  induction l with
  | nil => exact absurd h (by simp [tryEach])
  | cons a l' ih =>
    simp only [tryEach] at h
    cases hf : f a with
    | some b' =>
      rw [hf] at h
      exact ⟨a, by simp, hf.trans h⟩
    | none =>
      rw [hf] at h
      obtain ⟨a', ha', hfa'⟩ := ih h
      exact ⟨a', by simp [ha'], hfa'⟩

theorem plusSplits_rest_lt {p : Char → Bool} {s t r : List Char}
    (h : (t, r) ∈ plusSplits p s) : r.length < s.length := by
  simp only [plusSplits, List.mem_map, List.mem_range] at h
  obtain ⟨k, hk, heq⟩ := h
  obtain ⟨-, h2⟩ := Prod.mk.inj heq
  have hrun : (s.takeWhile p).length ≤ s.length := by
    have := List.takeWhile_append_dropWhile p s
    calc (s.takeWhile p).length ≤ (s.takeWhile p).length + (s.dropWhile p).length := by omega
    _ = s.length := by rw [← List.length_append, this]
  rw [← h2]
  simp only [List.length_drop]
  omega

theorem plusG_rest_lt {p : Char → Bool} {s t r : List Char}
    (h : (t, r) ∈ plusG p s) : r.length < s.length :=
  plusSplits_rest_lt (List.mem_reverse.mp h)

theorem litChar_rest_lt {c : Char} {s r : List Char}
    (h : litChar c s = some r) : r.length < s.length := by
  cases s with
  | nil => exact absurd h (by simp [litChar])
  | cons x tl =>
    have h2 : (if (x == c) = true then some tl else none) = some r := h
    by_cases hx : (x == c) = true
    · rw [if_pos hx] at h2
      rw [(Option.some.inj h2).symm]
      simp
    · rw [if_neg hx] at h2
      exact absurd h2 (by simp)

theorem matchTypeTok_rest_le {s ty r : List Char}
    (h : matchTypeTok s = some (ty, r)) : r.length ≤ s.length := by
  unfold matchTypeTok at h
  split_ifs at h with h1 h2 h3 <;>
    simp only [Option.some.injEq, Prod.mk.injEq] at h
  all_goals
    rw [← h.2]
    simp

theorem matchPrimaryAt_some_length {s : List Char} {sec : CourseSection} {r : List Char}
    (h : matchPrimaryAt s = some (sec, r)) : r.length < s.length := by
  obtain ⟨a, ha, h⟩ := tryEach_eq_some h
  obtain ⟨b, hb, h⟩ := tryEach_eq_some h
  have l1 : a.2.length < s.length := plusG_rest_lt (by rw [← Prod.mk.eta (p := a)] at ha; exact ha)
  have l2 : b.2.length < a.2.length := plusG_rest_lt (by rw [← Prod.mk.eta (p := b)] at hb; exact hb)
  cases h3 : litChar '(' b.2 with
  | none => rw [h3] at h; exact absurd h (by simp)
  | some s3 =>
    rw [h3] at h
    have l3 : s3.length < b.2.length := litChar_rest_lt h3
    obtain ⟨c, hc, h⟩ := tryEach_eq_some h
    have l4 : c.2.length < s3.length := plusG_rest_lt (by rw [← Prod.mk.eta (p := c)] at hc; exact hc)
    cases h5 : litChar ')' c.2 with
    | none => rw [h5] at h; exact absurd h (by simp)
    | some s5 =>
      rw [h5] at h
      have l5 : s5.length < c.2.length := litChar_rest_lt h5
      obtain ⟨d, hd, h⟩ := tryEach_eq_some h
      obtain ⟨e, he, h⟩ := tryEach_eq_some h
      obtain ⟨f, hf, h⟩ := tryEach_eq_some h
      obtain ⟨g, hg, h⟩ := tryEach_eq_some h
      obtain ⟨hh, hhh, h⟩ := tryEach_eq_some h
      obtain ⟨i, hi, h⟩ := tryEach_eq_some h
      obtain ⟨j, hj, h⟩ := tryEach_eq_some h
      obtain ⟨k, hk, h⟩ := tryEach_eq_some h
      obtain ⟨l, hl, h⟩ := tryEach_eq_some h
      have l6 : d.2.length < s5.length := plusG_rest_lt (by rw [← Prod.mk.eta (p := d)] at hd; exact hd)
      have l7 : e.2.length < d.2.length := plusG_rest_lt (by rw [← Prod.mk.eta (p := e)] at he; exact he)
      have l8 : f.2.length < e.2.length := plusG_rest_lt (by rw [← Prod.mk.eta (p := f)] at hf; exact hf)
      have l9 : g.2.length < f.2.length := plusG_rest_lt (by rw [← Prod.mk.eta (p := g)] at hg; exact hg)
      have l10 : hh.2.length < g.2.length := plusG_rest_lt (by rw [← Prod.mk.eta (p := hh)] at hhh; exact hhh)
      have l11 : i.2.length < hh.2.length := plusSplits_rest_lt (by rw [← Prod.mk.eta (p := i)] at hi; exact hi)
      have l12 : j.2.length < i.2.length := plusG_rest_lt (by rw [← Prod.mk.eta (p := j)] at hj; exact hj)
      have l13 : k.2.length < j.2.length := plusSplits_rest_lt (by rw [← Prod.mk.eta (p := k)] at hk; exact hk)
      have l14 : l.2.length < k.2.length := plusG_rest_lt (by rw [← Prod.mk.eta (p := l)] at hl; exact hl)
      cases h6 : matchTypeTok l.2 with
      | none => rw [h6] at h; exact absurd h (by simp)
      | some tt =>
        rw [h6] at h
        have h7 : (some (⟨a.1, e.1, g.1, stripWs i.1, stripWs k.1, tt.1, []⟩, tt.2) :
            Option (CourseSection × List Char)) = some (sec, r) := h
        obtain ⟨-, hr⟩ := Prod.mk.inj (Option.some.inj h7)
        have l15 : tt.2.length ≤ l.2.length :=
          matchTypeTok_rest_le (by rw [← Prod.mk.eta (p := tt)] at h6; exact h6)
        rw [← hr]
        omega

/-- C2: there is an input region whose lines carry well-formed section content
but deviate from the primary structured pattern (uppercase `PM` in the times
field), on which the primary pass yields zero sections and the fallback pass
produces one section; and the fallback pass is entered only when the primary
pass yields zero sections. -/
theorem c2_fallback_pass_exercised :
    findPrimary perturbedRegion = [] ∧
      fallbackPass perturbedRegion =
        [⟨("18582").data, ("TuTh").data, ("1:00PM-2:15PM").data, [],
          ("LAWRN 104 Marina Barsky").data, ("LEC").data, []⟩] ∧
      parse_sections_region perturbedRegion = fallbackPass perturbedRegion ∧
      (∀ r, findPrimary r ≠ [] → parse_sections_region r = findPrimary r) := by
  refine ⟨by decide, by decide, by decide, ?_⟩
  intro r hr
  unfold parse_sections_region
  rw [if_neg (by simpa using hr)]

/-- Witness for C2's conditional clause on a region where the primary pass
succeeds. -/
theorem c2_fallback_pass_exercised_witness :
    findPrimary wellFormedRegion ≠ [] ∧
      parse_sections_region wellFormedRegion = findPrimary wellFormedRegion :=
  ⟨by decide, c2_fallback_pass_exercised.2.2.2 wellFormedRegion (by decide)⟩

/-- C6: after detail extraction of any course from any page, `credits_min` and
`credits_max` are both set or both absent — never exactly one — provided the
incoming course satisfies the same invariant (as every course created by the
listing parser does); this holds even when only one of the two credit markers
appears in the page text, because the single search pattern requires both. -/
theorem c6_credits_both_or_neither (course : Course) (page : Page)
    (h : (course.credits_min = none ∧ course.credits_max = none) ∨
      ∃ a b, course.credits_min = some a ∧ course.credits_max = some b) :
    ((extractDetails course page).credits_min = none ∧
      (extractDetails course page).credits_max = none) ∨
    ∃ a b, (extractDetails course page).credits_min = some a ∧
      (extractDetails course page).credits_max = some b := by
  cases hc : searchCredits page.text with
  | some p =>
    right
    exact ⟨p.1, p.2, by simp [extractDetails, hc], by simp [extractDetails, hc]⟩
  | none =>
    have h1 : (extractDetails course page).credits_min = course.credits_min := by
      simp [extractDetails, hc]
    have h2 : (extractDetails course page).credits_max = course.credits_max := by
      simp [extractDetails, hc]
    rw [h1, h2]
    exact h

/-- Witness for C6 on a fresh course and a page with only the minimum-credits
marker. -/
theorem c6_credits_both_or_neither_witness :
    ((extractDetails freshCourse minOnlyPage).credits_min = none ∧
      (extractDetails freshCourse minOnlyPage).credits_max = none) ∨
    ∃ a b, (extractDetails freshCourse minOnlyPage).credits_min = some a ∧
      (extractDetails freshCourse minOnlyPage).credits_max = some b :=
  c6_credits_both_or_neither freshCourse minOnlyPage (Or.inl ⟨rfl, rfl⟩)

/-- C3: extraction of one course is atomic.  A failed fetch (the only fallible
step — each field recognizer is a total function) leaves the course exactly as
it was and does not propagate; a successful fetch runs the complete
extraction.  Consequently the cache is never corrupted: when the page fetch
fails, the course that `get_course_details` returns (and caches) is either the
already-cached course or a course of the current listing, unchanged — never a
half-written Course promoted to the detailed state. -/
theorem c3_extraction_atomic (course : Course) :
    (∀ u, parse_course_details course (Except.error u) = course) ∧
    (∀ page, parse_course_details course (Except.ok page) = extractDetails course page) ∧
    (∀ st code fl u c st',
      get_course_details st code fl (Except.error u) = (some c, st') →
      cacheLookup st.courses_cache (normCode code) = some c ∨
        c ∈ (get_all_courses st false fl).1) := by
  refine ⟨fun u => rfl, fun page => rfl, ?_⟩
  intro st code fl u c st' h
  have hfetch : ∀ st2 c2 st2',
      getCourseDetailsFetch st2 (normCode code) fl (Except.error u) = (some c2, st2') →
      c2 ∈ (get_all_courses st2 false fl).1 := by
    intro st2 c2 st2' h
    simp only [getCourseDetailsFetch] at h
    cases hf : (get_all_courses st2 false fl).1.find?
        (fun c => replDash c.code == normCode code) with
    | none =>
      rw [hf] at h
      exact absurd (Prod.mk.inj h).1 (by simp)
    | some found =>
      rw [hf] at h
      have h2 : ((some (parse_course_details found (Except.error u)) : Option Course),
          ({ (get_all_courses st2 false fl).2 with
             courses_cache := cacheInsert (get_all_courses st2 false fl).2.courses_cache
               (normCode code) (parse_course_details found (Except.error u)) } :
            ClientState)) = (some c2, st2') := h
      have hc : c2 = found := (Option.some.inj (Prod.mk.inj h2).1).symm
      exact hc ▸ List.mem_of_find?_eq_some hf
  unfold get_course_details at h
  cases hcl : cacheLookup st.courses_cache (normCode code) with
  | some cached =>
    rw [hcl] at h
    have h2 : (if cached.description.isEmpty = true then
        getCourseDetailsFetch st (normCode code) fl (Except.error u)
      else (some cached, st)) = (some c, st') := h
    by_cases hde : cached.description.isEmpty = true
    · rw [if_pos hde] at h2
      exact Or.inr (hfetch st c st' h2)
    · rw [if_neg hde] at h2
      exact Or.inl (Prod.mk.inj h2).1
  | none =>
    rw [hcl] at h
    have h2 : getCourseDetailsFetch st (normCode code) fl (Except.error u) =
        (some c, st') := h
    exact Or.inr (hfetch st c st' h2)

/-- Witness for C3: a failed fetch on a state whose listing cache holds the
fresh course returns that course unchanged. -/
theorem c3_extraction_atomic_witness :
    parse_course_details freshCourse (Except.error ()) = freshCourse ∧
      get_course_details
          { courses_cache := [], courses_list_cache := [freshCourse] }
          (("CS 0445").data) [] (Except.error ()) =
        (some freshCourse,
         { courses_cache := [((("CS-0445").data), freshCourse)],
           courses_list_cache := [freshCourse] }) ∧
      (cacheLookup [] (normCode (("CS 0445").data)) = some freshCourse ∨
        freshCourse ∈ (get_all_courses
          { courses_cache := [], courses_list_cache := [freshCourse] } false []).1) := by
  refine ⟨(c3_extraction_atomic freshCourse).1 (), by decide, ?_⟩
  exact (c3_extraction_atomic freshCourse).2.2
    { courses_cache := [], courses_list_cache := [freshCourse] }
    (("CS 0445").data) [] () freshCourse
    { courses_cache := [((("CS-0445").data), freshCourse)],
      courses_list_cache := [freshCourse] }
    (by decide)

theorem cacheLookup_foldl_not_mem {fetched : List Course} :
    ∀ cc k, (∀ c ∈ fetched, c.code ≠ k) →
      cacheLookup (fetched.foldl (fun cc c => cacheInsert cc c.code c) cc) k =
        cacheLookup cc k := by
  induction fetched with
  | nil => intro cc k _; rfl
  | cons c rest ih =>
    intro cc k h
    simp only [List.foldl_cons]
    rw [ih (cacheInsert cc c.code c) k (fun c' hc' => h c' (by simp [hc']))]
    unfold cacheLookup cacheInsert
    rw [List.find?_cons_of_neg _ (by simpa using h c (by simp))]

theorem find?_append_none {α} (p : α → Bool) (l1 l2 : List α) (h : l1.find? p = none) :
    (l1 ++ l2).find? p = l2.find? p := by
  induction l1 with
  | nil => rfl
  | cons x xs ih =>
    cases hx : p x with
    | true =>
      rw [List.find?_cons_of_pos _ hx] at h
      exact absurd h (by simp)
    | false =>
      rw [List.find?_cons_of_neg _ (by simp [hx])] at h
      rw [List.cons_append, List.find?_cons_of_neg _ (by simp [hx])]
      exact ih h

theorem find?_append_some {α} (p : α → Bool) (l1 l2 : List α) (c : α)
    (h : l1.find? p = some c) : (l1 ++ l2).find? p = some c := by
  induction l1 with
  | nil => exact absurd h (by simp)
  | cons x xs ih =>
    cases hx : p x with
    | true =>
      rw [List.find?_cons_of_pos _ hx] at h
      rw [List.cons_append, List.find?_cons_of_pos _ hx]
      exact h
    | false =>
      rw [List.find?_cons_of_neg _ (by simp [hx])] at h
      rw [List.cons_append, List.find?_cons_of_neg _ (by simp [hx])]
      exact ih h

theorem cacheLookup_foldl_mem {fetched : List Course} :
    ∀ cc k c, listingEntry fetched k = some c →
      cacheLookup (fetched.foldl (fun cc c => cacheInsert cc c.code c) cc) k =
        some c := by
  induction fetched with
  | nil => intro cc k c h; exact absurd h (by simp [listingEntry])
  | cons a rest ih =>
    intro cc k c h
    unfold listingEntry at h
    rw [List.reverse_cons] at h
    simp only [List.foldl_cons]
    cases hf : rest.reverse.find? (fun d => d.code == k) with
    | some d =>
      rw [find?_append_some _ _ _ d hf] at h
      exact ih (cacheInsert cc a.code a) k c
        (by unfold listingEntry; rw [hf]; exact h)
    | none =>
      rw [find?_append_none _ _ _ hf] at h
      have hac : (a.code == k) = true ∧ a = c := by
        cases hb : (a.code == k) with
        | true =>
          have h1 := List.find?_cons_of_pos (p := fun d => d.code == k) (a := a)
            ([] : List Course) hb
          rw [h1] at h
          exact ⟨rfl, Option.some.inj h⟩
        | false =>
          have h1 := List.find?_cons_of_neg (p := fun d => d.code == k) (a := a)
            ([] : List Course) (by simp [hb])
          rw [h1] at h
          exact absurd h (by simp)
      obtain ⟨hak, rfl⟩ := hac
      have hrest : ∀ d ∈ rest, d.code ≠ k := by
        intro d hd he
        have hnp := List.find?_eq_none.mp hf d (List.mem_reverse.mpr hd)
        simp [he] at hnp
      rw [cacheLookup_foldl_not_mem (cacheInsert cc a.code a) k hrest]
      unfold cacheLookup cacheInsert
      have h2 := List.find?_cons_of_pos (p := fun q => q.1 == k) (a := (a.code, a))
        cc hak
      rw [h2]
      rfl

/-- C4 (amended): when `refresh` is false and the list cache is non-empty, the
cached listing is returned and the state is unchanged; otherwise the fetch
runs, replaces the list cache, and overwrites the detail-cache entry for each
code appearing in the new listing with that listing's shallow course (the last
listed course under that code, as the loop's final write), while detail-cache
entries under codes not in the new listing are retained unchanged. -/
theorem c4_refresh_cache_behavior :
    (∀ st fetched, st.courses_list_cache ≠ [] →
      get_all_courses st false fetched = (st.courses_list_cache, st)) ∧
    (∀ st refresh fetched, (refresh = true ∨ st.courses_list_cache = []) →
      (get_all_courses st refresh fetched).1 = fetched ∧
      (get_all_courses st refresh fetched).2.courses_list_cache = fetched ∧
      (∀ k c, listingEntry fetched k = some c →
        cacheLookup (get_all_courses st refresh fetched).2.courses_cache k =
          some c) ∧
      ∀ k, (∀ c ∈ fetched, c.code ≠ k) →
        cacheLookup (get_all_courses st refresh fetched).2.courses_cache k =
          cacheLookup st.courses_cache k) := by
  constructor
  · intro st fetched hne
    unfold get_all_courses
    rw [if_pos (by simp [hne])]
  · intro st refresh fetched hcond
    have helse :
        get_all_courses st refresh fetched =
          (fetched,
           { courses_list_cache := fetched,
             courses_cache :=
               fetched.foldl (fun cc c => cacheInsert cc c.code c) st.courses_cache }) := by
      unfold get_all_courses
      rcases hcond with rfl | hnil
      · rw [if_neg (by simp)]
      · rw [if_neg (by simp [hnil])]
    rw [helse]
    exact ⟨rfl, rfl, fun k c hk => cacheLookup_foldl_mem st.courses_cache k c hk,
      fun k hk => cacheLookup_foldl_not_mem st.courses_cache k hk⟩

/-- Counterexample to C4 as stated: a list refresh whose new listing lacks the
detailed course's code leaves that detailed entry in the detail cache — it is
not dropped. -/
theorem c4_stale_detail_counterexample :
    (get_all_courses staleState true [otherCourse]).1 = [otherCourse] ∧
      cacheLookup (get_all_courses staleState true [otherCourse]).2.courses_cache
        (("CS-0445").data) = some detailedCourse ∧
      detailedCourse.description ≠ [] := by
  exact ⟨by decide, by decide, by decide⟩

/-- Witness for C4's amended theorem at a concrete state: the cached-return
path, the refresh path's listing, the overwrite of the re-listed code with
the listing's shallow course, and the retention of the absent code's entry. -/
theorem c4_refresh_cache_behavior_witness :
    get_all_courses staleState false [] = ([otherCourse], staleState) ∧
      (get_all_courses staleState true [otherCourse]).1 = [otherCourse] ∧
      cacheLookup (get_all_courses staleState true [otherCourse]).2.courses_cache
          (("CS-1501").data) = some otherCourse ∧
      cacheLookup (get_all_courses staleState true [otherCourse]).2.courses_cache
          (("CS-0445").data) =
        cacheLookup staleState.courses_cache (("CS-0445").data) := by
  refine ⟨?_, ?_, ?_, ?_⟩
  · exact c4_refresh_cache_behavior.1 staleState [] (by decide)
  · exact ((c4_refresh_cache_behavior.2 staleState true [otherCourse]) (Or.inl rfl)).1
  · exact ((c4_refresh_cache_behavior.2 staleState true [otherCourse]) (Or.inl rfl)).2.2.1
      (("CS-1501").data) otherCourse (by decide)
  · exact ((c4_refresh_cache_behavior.2 staleState true [otherCourse]) (Or.inl rfl)).2.2.2
      (("CS-0445").data) (by decide)

theorem normChar_eq_of_equiv {c d : Char} (h : codeCharEquiv c d) :
    (if upperChar c == ' ' then '-' else upperChar c) =
      (if upperChar d == ' ' then '-' else upperChar d) := by
  rcases h with h | ⟨hc, hd⟩
  · rw [h]
  · rcases hc with rfl | rfl <;> rcases hd with rfl | rfl <;> decide

theorem normCode_eq_of_equiv {a b : List Char} (h : codeEquiv a b) :
    normCode a = normCode b := by
  unfold normCode
  induction h with
  | nil => rfl
  | cons hcd _ ih =>
    simp only [List.map_cons, List.cons.injEq]
    exact ⟨normChar_eq_of_equiv hcd, by simpa using ih⟩

/-- C7: any two course-code arguments differing only in case or in spaces
versus hyphens normalize identically, so for every catalog state (and the same
external fetch inputs) `get_course_details` resolves them to the same cached
Course, with the same state effects. -/
theorem c7_code_normalization {a b : List Char} (h : codeEquiv a b) :
    normCode a = normCode b ∧
      ∀ st fl fp, get_course_details st a fl fp = get_course_details st b fl fp := by
  refine ⟨normCode_eq_of_equiv h, ?_⟩
  intro st fl fp
  unfold get_course_details
  rw [normCode_eq_of_equiv h]

/-- Witness for C7 at `"CS 0445"` and `"cs-0445"` on a concrete state. -/
theorem c7_code_normalization_witness :
    normCode (("CS 0445").data) = normCode (("cs-0445").data) ∧
      get_course_details staleState (("CS 0445").data) [] (Except.error ()) =
        get_course_details staleState (("cs-0445").data) [] (Except.error ()) := by
  have h : codeEquiv (("CS 0445").data) (("cs-0445").data) := by
    refine List.Forall₂.cons (Or.inl (by decide)) ?_
    refine List.Forall₂.cons (Or.inl (by decide)) ?_
    refine List.Forall₂.cons (Or.inr (by decide)) ?_
    refine List.Forall₂.cons (Or.inl (by decide)) ?_
    refine List.Forall₂.cons (Or.inl (by decide)) ?_
    refine List.Forall₂.cons (Or.inl (by decide)) ?_
    refine List.Forall₂.cons (Or.inl (by decide)) ?_
    exact List.Forall₂.nil
  exact ⟨(c7_code_normalization h).1,
    (c7_code_normalization h).2 staleState [] (Except.error ())⟩

/-- C8 (amended): `search_courses` returns exactly the courses whose code,
title, or non-empty description contains the query case-insensitively,
restricted — when a non-empty department argument is given — to courses whose
department prefix equals it case-insensitively, where the department prefix is
the portion of the code before its first hyphen when the code contains a
hyphen, and otherwise the portion before its first space; listing order is
preserved (the result is the order-preserving filter of the listing). -/
theorem c8_search_exact_filter (courses : List Course) (q : List Char)
    (d : Option (List Char)) :
    search_courses courses q d = courses.filter (searchMatchPred q d) := by
  induction courses with
  | nil => rfl
  | cons c rest ih =>
    rw [List.filter_cons]
    by_cases hm : (isSubCi q c.code || isSubCi q c.title ||
        (!c.description.isEmpty && isSubCi q c.description)) = true
    · cases d with
      | none =>
        have hpred : searchMatchPred q none c = true := by
          simp [searchMatchPred, hm]
        rw [hpred]
        have hstep : search_courses (c :: rest) q none =
            c :: search_courses rest q none := by
          show (if (isSubCi q c.code || isSubCi q c.title ||
              (!c.description.isEmpty && isSubCi q c.description)) = true then
              c :: search_courses rest q none
            else search_courses rest q none) = _
          rw [if_pos hm]
        rw [hstep, ih]
        simp
      | some dep =>
        by_cases hde : dep.isEmpty = true
        · have hpred : searchMatchPred q (some dep) c = true := by
            simp [searchMatchPred, hm, hde]
          rw [hpred]
          have hstep : search_courses (c :: rest) q (some dep) =
              c :: search_courses rest q (some dep) := by
            show (if (isSubCi q c.code || isSubCi q c.title ||
                (!c.description.isEmpty && isSubCi q c.description)) = true then
                (if (!dep.isEmpty) = true then
                  (if (!((deptOfCode c.code).map upperChar == dep.map upperChar)) = true then
                    search_courses rest q (some dep)
                  else c :: search_courses rest q (some dep))
                else c :: search_courses rest q (some dep))
              else search_courses rest q (some dep)) = _
            rw [if_pos hm, if_neg (by simp [hde])]
          rw [hstep, ih]
          simp
        · by_cases heq : ((deptOfCode c.code).map upperChar == dep.map upperChar) = true
          · have hpred : searchMatchPred q (some dep) c = true := by
              simp only [searchMatchPred, hm, Bool.true_and]
              rw [if_pos (by simp [hde])]
              exact heq
            rw [hpred]
            have hstep : search_courses (c :: rest) q (some dep) =
                c :: search_courses rest q (some dep) := by
              show (if (isSubCi q c.code || isSubCi q c.title ||
                  (!c.description.isEmpty && isSubCi q c.description)) = true then
                  (if (!dep.isEmpty) = true then
                    (if (!((deptOfCode c.code).map upperChar == dep.map upperChar)) = true then
                      search_courses rest q (some dep)
                    else c :: search_courses rest q (some dep))
                  else c :: search_courses rest q (some dep))
                else search_courses rest q (some dep)) = _
              rw [if_pos hm, if_pos (by simp [hde]), if_neg (by simp [heq])]
            rw [hstep, ih]
            simp
          · have hpred : searchMatchPred q (some dep) c = false := by
              simp only [searchMatchPred, hm, Bool.true_and]
              rw [if_pos (by simp [hde])]
              simpa using heq
            rw [hpred]
            have hstep : search_courses (c :: rest) q (some dep) =
                search_courses rest q (some dep) := by
              show (if (isSubCi q c.code || isSubCi q c.title ||
                  (!c.description.isEmpty && isSubCi q c.description)) = true then
                  (if (!dep.isEmpty) = true then
                    (if (!((deptOfCode c.code).map upperChar == dep.map upperChar)) = true then
                      search_courses rest q (some dep)
                    else c :: search_courses rest q (some dep))
                  else c :: search_courses rest q (some dep))
                else search_courses rest q (some dep)) = _
              have heq' : ((deptOfCode c.code).map upperChar == dep.map upperChar) = false :=
                Bool.eq_false_iff.mpr heq
              rw [if_pos hm, if_pos (by simp [hde]), if_pos (by simp [heq'])]
            rw [hstep, ih]
            simp
    · have hm' : (isSubCi q c.code || isSubCi q c.title ||
          (!c.description.isEmpty && isSubCi q c.description)) = false :=
        Bool.eq_false_iff.mpr hm
      have hpred : searchMatchPred q d c = false := by
        simp only [searchMatchPred]
        rw [hm']
        simp
      rw [hpred]
      cases d with
      | none =>
        have hstep : search_courses (c :: rest) q none = search_courses rest q none := by
          show (if (isSubCi q c.code || isSubCi q c.title ||
              (!c.description.isEmpty && isSubCi q c.description)) = true then
              c :: search_courses rest q none
            else search_courses rest q none) = _
          rw [if_neg hm]
        rw [hstep, ih]
        simp
      | some dep =>
        have hstep : search_courses (c :: rest) q (some dep) =
            search_courses rest q (some dep) := by
          show (if (isSubCi q c.code || isSubCi q c.title ||
              (!c.description.isEmpty && isSubCi q c.description)) = true then
              (if (!dep.isEmpty) = true then
                (if (!((deptOfCode c.code).map upperChar == dep.map upperChar)) = true then
                  search_courses rest q (some dep)
                else c :: search_courses rest q (some dep))
              else c :: search_courses rest q (some dep))
            else search_courses rest q (some dep)) = _
          rw [if_neg hm]
        rw [hstep, ih]
        simp

/-- Counterexample to C8 as stated: on a code containing a space before its
first hyphen, the source takes the portion before the first hyphen as the
department prefix, not the portion before the first separator, so the search
result differs from the claim's filter. -/
theorem c8_dept_rule_counterexample :
    search_courses [oddCourse] (("a").data) (some (("A").data)) = [] ∧
      ([oddCourse].filter (searchClaimPred (("a").data) (some (("A").data)))) =
        [oddCourse] ∧
      search_courses [oddCourse] (("a").data) (some (("A").data)) ≠
        [oddCourse].filter (searchClaimPred (("a").data) (some (("A").data))) := by
  exact ⟨by decide, by decide, by decide⟩

/-- C5 (amended): the four tools with a guarded required argument
(`search_courses`, `get_course_details`, `list_courses_by_department`,
`get_course_sections`) reject an empty required argument with a plain
textual message before any client work, and an unknown tool name yields a
method-not-found signal; but `get_prerequisites` and
`find_prerequisite_chain` perform no such check and pass their
(possibly empty) `course_code` argument straight to the details call, so
the claimed guard does not hold for every tool with a required argument. -/
theorem c5_dispatch_guards (args : List (List Char × List Char)) (name : List Char) :
    ((getArgD args (("query").data)).isEmpty = true →
      dispatchAction (("search_courses").data) args =
        ToolAction.respondText (("Query parameter is required").data)) ∧
    ((getArgD args (("course_code").data)).isEmpty = true →
      dispatchAction (("get_course_details").data) args =
        ToolAction.respondText (("Course code is required").data)) ∧
    ((getArgD args (("department").data)).isEmpty = true →
      dispatchAction (("list_courses_by_department").data) args =
        ToolAction.respondText (("Department parameter is required").data)) ∧
    ((getArgD args (("course_code").data)).isEmpty = true →
      dispatchAction (("get_course_sections").data) args =
        ToolAction.respondText (("Course code is required").data)) ∧
    (dispatchAction (("get_prerequisites").data) args =
      ToolAction.detailsCall (getArgD args (("course_code").data))) ∧
    (dispatchAction (("find_prerequisite_chain").data) args =
      ToolAction.detailsCall (getArgD args (("course_code").data))) ∧
    (name ≠ ("search_courses").data → name ≠ ("get_course_details").data →
      name ≠ ("get_prerequisites").data → name ≠ ("list_courses_by_department").data →
      name ≠ ("find_prerequisite_chain").data → name ≠ ("get_course_sections").data →
      dispatchAction name args =
        ToolAction.methodNotFound ((("Unknown tool: ").data) ++ name)) := by
  refine ⟨?_, ?_, ?_, ?_, ?_, ?_, ?_⟩
  · intro h
    unfold dispatchAction
    rw [if_pos (by decide), if_pos h]
  · intro h
    unfold dispatchAction
    rw [if_neg (by decide), if_pos (by decide), if_pos h]
  · intro h
    unfold dispatchAction
    rw [if_neg (by decide), if_neg (by decide), if_neg (by decide),
      if_pos (by decide), if_pos h]
  · intro h
    unfold dispatchAction
    rw [if_neg (by decide), if_neg (by decide), if_neg (by decide),
      if_neg (by decide), if_neg (by decide), if_pos (by decide), if_pos h]
  · unfold dispatchAction
    rw [if_neg (by decide), if_neg (by decide), if_pos (by decide)]
  · unfold dispatchAction
    rw [if_neg (by decide), if_neg (by decide), if_neg (by decide),
      if_neg (by decide), if_pos (by decide)]
  · intro h1 h2 h3 h4 h5 h6
    unfold dispatchAction
    rw [if_neg (by simp [h1]), if_neg (by simp [h2]), if_neg (by simp [h3]),
      if_neg (by simp [h4]), if_neg (by simp [h5]), if_neg (by simp [h6])]

/-- Witness for `c5_dispatch_guards` at the empty argument record and an
unknown tool name. -/
theorem c5_dispatch_guards_witness :
    dispatchAction (("search_courses").data) [] =
      ToolAction.respondText (("Query parameter is required").data) ∧
    dispatchAction (("get_course_details").data) [] =
      ToolAction.respondText (("Course code is required").data) ∧
    dispatchAction (("list_courses_by_department").data) [] =
      ToolAction.respondText (("Department parameter is required").data) ∧
    dispatchAction (("get_course_sections").data) [] =
      ToolAction.respondText (("Course code is required").data) ∧
    dispatchAction (("get_prerequisites").data) [] = ToolAction.detailsCall [] ∧
    dispatchAction (("find_prerequisite_chain").data) [] = ToolAction.detailsCall [] ∧
    dispatchAction (("bogus").data) [] =
      ToolAction.methodNotFound ((("Unknown tool: ").data) ++ ("bogus").data) := by
  have h := c5_dispatch_guards [] (("bogus").data)
  exact ⟨h.1 (by decide), h.2.1 (by decide), h.2.2.1 (by decide), h.2.2.2.1 (by decide),
    h.2.2.2.2.1, h.2.2.2.2.2.1,
    h.2.2.2.2.2.2 (by decide) (by decide) (by decide) (by decide) (by decide) (by decide)⟩

/-- Counterexample to C5 as stated: `get_prerequisites` takes a required
`course_code` argument, yet with an empty argument record the dispatch does
not reject the call with a textual message — it proceeds to the details
call on the empty code. -/
theorem c5_unguarded_counterexample :
    dispatchAction (("get_prerequisites").data) [] = ToolAction.detailsCall [] ∧
      (getArgD [] (("course_code").data)).isEmpty = true ∧
      dispatchAction (("find_prerequisite_chain").data) [] =
        ToolAction.detailsCall [] := by
  exact ⟨by decide, by decide, by decide⟩

/-- C10: the rendered search-results text depends only on the first 20
matching courses — `renderSearchResults` of any result list equals that of
its 20-course truncation — while the underlying client search on a
21-course all-matching listing returns all 21 courses; each rendered hit
contributes two lines, and only 40 lines (20 hits) appear in the output. -/
theorem c10_render_truncates_to_20 :
    (∀ results : List Course,
      renderSearchResults results = renderSearchResults (results.take 20)) ∧
    search_courses bigListing (("cs").data) none = bigListing ∧
    bigListing.length = 21 ∧
    (renderSearchResults (search_courses bigListing (("cs").data) none)).length = 40 := by
  refine ⟨fun results => ?_, by decide, by decide, by decide⟩
  simp [renderSearchResults, List.take_take]
